import Mathlib

/-!
# Verification of the vgmedical document-reconciliation engine

Shallow embedding of the extraction-and-reconciliation core:

* `apps/verification/engine.py` — `SupplyMatcher`, `BasicDataVerifier`,
  `SupplyVerifier`, `VerificationEngine._calculate_overall_score`;
* `apps/document_processor/services/services.py` — `EquivalenceManager`;
* `apps/document_processor/models.py` — `SupplyEquivalence.add_alias`;
* `apps/document_processor/parsers.py` — the three supply extractors.

Strings are modelled as `List Char`.  Python string primitives (`str.strip`,
`str.lower`, `str.replace`, `re.sub` for the concrete patterns appearing in
the source, `str.split`, `sorted`) are given executable models below; Unicode
NFKD decomposition plus combining-mark stripping is modelled over the
character repertoire the program actually handles (ASCII plus the Spanish
accented letters); floats are modelled by `ℚ`.
-/

namespace VGMed

/-- Python whitespace class `\s` (the characters `str.split`/`str.strip`
treat as whitespace). -/
def isPyWs (c : Char) : Bool :=
  c = ' ' || c = '\t' || c = '\n' || c = '\x0d' || c = '\x0b' || c = '\x0c'

/-- ASCII decimal digit, the `\d` class over the modelled repertoire. -/
def isDigitC (c : Char) : Bool :=
  '0' ≤ c && c ≤ '9'

/-- Python `\w` (word character) over the modelled repertoire:
alphanumeric or underscore. -/
def isWordC (c : Char) : Bool :=
  c.isAlphanum || c = '_'

/-- Model of Python `str.lower` per character (ASCII case mapping; the
accented letters have been decomposed away before `lower` is applied in
both normalizers). -/
def pyLower (c : Char) : Char :=
  if 'A' ≤ c && c ≤ 'Z' then Char.ofNat (c.toNat + 32) else c

/-- Model of Python `str.upper` per character (ASCII case mapping). -/
def pyUpper (c : Char) : Char :=
  if 'a' ≤ c && c ≤ 'z' then Char.ofNat (c.toNat - 32) else c

/-- Model of `unicodedata.normalize('NFKD', ·)` followed by dropping
combining marks, per character, over the repertoire used by the program
(Spanish accented vowels, `ñ`, `ü`); every other character is left alone.
The multiplication sign `×` has no decomposition and survives. -/
def nfkdStrip (c : Char) : List Char :=
  if c = 'á' then ['a'] else if c = 'é' then ['e'] else
  if c = 'í' then ['i'] else if c = 'ó' then ['o'] else
  if c = 'ú' then ['u'] else if c = 'ñ' then ['n'] else
  if c = 'ü' then ['u'] else
  if c = 'Á' then ['A'] else if c = 'É' then ['E'] else
  if c = 'Í' then ['I'] else if c = 'Ó' then ['O'] else
  if c = 'Ú' then ['U'] else if c = 'Ñ' then ['N'] else
  if c = 'Ü' then ['U'] else [c]

/-- Python `str.strip()` (no argument): drop leading and trailing
whitespace. -/
def pyStrip (l : List Char) : List Char :=
  ((l.dropWhile isPyWs).reverse.dropWhile isPyWs).reverse

/-- Model of `re.sub(r'\s+', ' ', s)`: every maximal whitespace run becomes
one space. -/
def collapseWs : List Char → List Char
  | [] => []
  | c :: cs =>
    let r := collapseWs cs
    if isPyWs c then
      match r with
      | d :: _ => if d = ' ' then r else ' ' :: r
      | [] => [' ']
    else c :: r

/-- Fuel-driven worker for `pyReplace`. -/
def pyReplaceF (old new : List Char) : Nat → List Char → List Char
  | 0, s => s
  | _ + 1, [] => []
  | f + 1, c :: cs =>
    if old.isPrefixOf (c :: cs) then
      new ++ pyReplaceF old new f ((c :: cs).drop old.length)
    else c :: pyReplaceF old new f cs

/-- Model of Python `s.replace(old, new)` (left-to-right, non-overlapping).
Only used with nonempty `old`; the empty-pattern case returns `s`. -/
def pyReplace (s old new : List Char) : List Char :=
  if old = [] then s else pyReplaceF old new s.length s

/-- Parse a maximal run of digits, optionally followed (in decimal mode,
pattern `\d+(?:\.\d+)?`) by a dot and a further nonempty digit run.
Returns the captured token and the rest of the input. -/
def numToken (dec : Bool) (s : List Char) : Option (List Char × List Char) :=
  let d := s.takeWhile isDigitC
  if d = [] then none
  else
    let r := s.dropWhile isDigitC
    if dec then
      if r.head? = some '.' then
        let f := (r.drop 1).takeWhile isDigitC
        if f = [] then some (d, r)
        else some (d ++ '.' :: f, (r.drop 1).dropWhile isDigitC)
      else some (d, r)
    else some (d, r)

/-- Try the dimension pattern `<num>\s*<sep>\s*<num>` at the start of `s`
(the patterns `(\d+)\s*x\s*(\d+)` and `(\d+)\s*×\s*(\d+)` of the Supply
Matcher, and `(\d+(?:\.\d+)?)\s*x\s*(\d+(?:\.\d+)?)` of the Equivalence
Manager).  On success return the replacement text `\1x\2` and the rest of
the input after the match. -/
def dimMatchAt (dec : Bool) (sep : Char) (s : List Char) :
    Option (List Char × List Char) :=
  (numToken dec s).bind fun p =>
    let r2 := p.2.dropWhile isPyWs
    if r2.head? = some sep then
      (numToken dec ((r2.drop 1).dropWhile isPyWs)).bind fun q =>
        some (p.1 ++ 'x' :: q.1, q.2)
    else none

/-- Fuel-driven worker for `dimSub`. -/
def dimSubF (dec : Bool) (sep : Char) : Nat → List Char → List Char
  | 0, s => s
  | _ + 1, [] => []
  | f + 1, c :: cs =>
    match dimMatchAt dec sep (c :: cs) with
    | some (repl, rest) => repl ++ dimSubF dec sep f rest
    | none => c :: dimSubF dec sep f cs

/-- Model of `re.sub` for the dimension patterns: leftfmost, non-overlapping
scan replacing each match `<num> <sep> <num>` by `\1x\2`. -/
def dimSub (dec : Bool) (sep : Char) (s : List Char) : List Char :=
  dimSubF dec sep s.length s

/-- Character class kept by `SupplyMatcher._normalize_name`
(`re.sub(r'[^\w\s\d.,x×-]', '', ...)` deletes the complement). -/
def allowedM (c : Char) : Bool :=
  isWordC c || isPyWs c || isDigitC c || c = '.' || c = ',' || c = 'x' ||
    c = '×' || c = '-'

/-- Character class kept by `EquivalenceManager._normalize_name`
(`re.sub(r'[^\w\s\d\.,x\-]', '', ...)`): same as `allowedM` minus `×`. -/
def allowedE (c : Char) : Bool :=
  isWordC c || isPyWs c || isDigitC c || c = '.' || c = ',' || c = 'x' ||
    c = '-'

/-- Shared head of both normalizers: NFKD-decompose, strip combining
marks, lower-case, strip surrounding whitespace. -/
def preNorm (name : List Char) : List Char :=
  pyStrip ((name.flatMap nfkdStrip).map pyLower)

/-- `SupplyMatcher._normalize_name` (engine.py lines 74–107): strip
accents, lower-case, delete characters outside the allowed set, collapse
whitespace, glue integer dimension patterns around `x` and `×`, apply the
literal replacement table (five identity entries and
`standard → estandar`), and strip. -/
def matcherNormalize (name : List Char) : List Char :=
  if name = [] then []
  else
    let s := preNorm name
    let s := s.filter allowedM
    let s := collapseWs s
    let s := dimSub false 'x' s
    let s := dimSub false '×' s
    let s := pyReplace s ['m', 'm'] ['m', 'm']
    let s := pyReplace s ['c', 'm'] ['c', 'm']
    let s := pyReplace s "tornillo".data "tornillo".data
    let s := pyReplace s "placa".data "placa".data
    let s := pyReplace s "clavo".data "clavo".data
    let s := pyReplace s "encefalico".data "encefalico".data
    let s := pyReplace s "estandar".data "estandar".data
    let s := pyReplace s "standard".data "estandar".data
    pyStrip s

/-- `EquivalenceManager._normalize_name` (services.py lines 483–498):
strip accents, lower-case, fold every `×` to `x`, delete characters
outside the allowed set, collapse whitespace, glue decimal dimension
patterns around `x`, and replace `standard → estandar` (no final strip). -/
def equivNormalize (name : List Char) : List Char :=
  let s := preNorm name
  let s := s.map fun c => if c = '×' then 'x' else c
  let s := s.filter allowedE
  let s := collapseWs s
  let s := dimSub true 'x' s
  pyReplace s "standard".data "estandar".data

/-! ## Fuzzy similarity (rapidfuzz model)

`fuzz.ratio` is the Indel-normalized similarity scaled to 0–100:
`100·(len1+len2−dist)/(len1+len2)` with `dist = len1+len2−2·lcs`, i.e.
`200·lcs/(len1+len2)`; `fuzz.token_sort_ratio` applies `ratio` after
splitting on whitespace, sorting the tokens and re-joining with single
spaces.  Scores are floats in rapidfuzz, modelled by `ℚ`. -/

/-- Fuel-driven longest-common-subsequence length. -/
def lcsF : Nat → List Char → List Char → Nat
  | 0, _, _ => 0
  | _ + 1, [], _ => 0
  | _ + 1, _ :: _, [] => 0
  | f + 1, a :: as, b :: bs =>
    if a = b then lcsF f as bs + 1
    else max (lcsF f as (b :: bs)) (lcsF f (a :: as) bs)

/-- Longest common subsequence length of two strings. -/
def lcs (a b : List Char) : Nat :=
  lcsF (a.length + b.length) a b

/-- `rapidfuzz` Indel-normalized similarity on 0–100 (`fuzz.ratio`
applied to already-processed strings); two empty strings score 100. -/
def indelSim (a b : List Char) : ℚ :=
  if a.length + b.length = 0 then 100
  else 200 * lcs a b / (a.length + b.length)

/-- Fuel-driven worker for `pySplit`. -/
def pySplitF : Nat → List Char → List (List Char)
  | 0, _ => []
  | _ + 1, [] => []
  | f + 1, c :: cs =>
    if isPyWs c then pySplitF f cs
    else
      ((c :: cs).takeWhile fun d => !isPyWs d) ::
        pySplitF f ((c :: cs).dropWhile fun d => !isPyWs d)

/-- Python `str.split()` with no argument: split on whitespace runs,
dropping empty tokens. -/
def pySplit (s : List Char) : List (List Char) :=
  pySplitF s.length s

/-- Python string comparison (lexicographic by code point), strict. -/
def lexLt : List Char → List Char → Bool
  | [], [] => false
  | [], _ :: _ => true
  | _ :: _, [] => false
  | a :: as, b :: bs =>
    if a.val < b.val then true
    else if b.val < a.val then false
    else lexLt as bs

/-- Insert into a sorted list of strings (ascending). -/
def insertSorted (x : List Char) : List (List Char) → List (List Char)
  | [] => [x]
  | y :: ys => if lexLt y x then y :: insertSorted x ys else x :: y :: ys

/-- Python `sorted` on a list of strings. -/
def sortStrings (l : List (List Char)) : List (List Char) :=
  l.foldr insertSorted []

/-- The string `" ".join(sorted(s.split()))` that `token_sort_ratio`
compares. -/
def tokenSortPrep (s : List Char) : List Char :=
  List.intercalate [' '] (sortStrings (pySplit s))

/-- `rapidfuzz.fuzz.token_sort_ratio`: token-order-insensitive similarity
on 0–100. -/
def tokenSortRatio (a b : List Char) : ℚ :=
  indelSim (tokenSortPrep a) (tokenSortPrep b)

/-- Worker for `extractOne`: keep the best-scoring choice, first wins on
ties (`rapidfuzz.process.extractOne` replaces the best only on a strictly
greater score). -/
def extractOneAux (q : List Char) :
    (List Char × ℚ) → List (List Char) → List Char × ℚ
  | best, [] => best
  | best, c :: cs =>
    let sc := tokenSortRatio q c
    if best.2 < sc then extractOneAux q (c, sc) cs
    else extractOneAux q best cs

/-- `rapidfuzz.process.extractOne(query, choices, scorer=token_sort_ratio)`:
the choice with the maximal score (first on ties), `none` for an empty
choice list. -/
def extractOne (q : List Char) : List (List Char) → Option (List Char × ℚ)
  | [] => none
  | c :: cs => some (extractOneAux q (c, tokenSortRatio q c) cs)

/-! ## SupplyMatcher.find_match (engine.py lines 37–72)

The matcher's equivalence table is the dictionary loaded at construction:
an association list `canonical → aliases` (all lower-cased by
`_load_equivalences`), iterated in insertion order. -/

/-- The equivalence table of a `SupplyMatcher`. -/
abbrev EquivTable := List (List Char × List (List Char))

/-- Step 2 of `find_match`: scan the equivalence entries in order; on the
first entry whose alias list contains the normalized target, return the
first candidate normalizing to that entry's canonical name or to one of
its aliases; if no candidate does, keep scanning the remaining entries. -/
def equivScan (t : List Char) (cands : List (List Char)) :
    EquivTable → Option (List Char)
  | [] => none
  | (can, al) :: es =>
    if t ∈ al then
      match cands.find? (fun c =>
          matcherNormalize c == can || al.contains (matcherNormalize c)) with
      | some c => some c
      | none => equivScan t cands es
    else equivScan t cands es

/-- `SupplyMatcher.find_match`: exact match after normalization
(confidence 100), else known-equivalence match (confidence 95), else the
best token-sort fuzzy score if it reaches the threshold 85 (confidence =
the score), else no match. -/
def findMatch (E : EquivTable) (target : List Char)
    (cands : List (List Char)) : Option (List Char × ℚ) :=
  let t := matcherNormalize target
  match cands.find? (fun c => matcherNormalize c == t) with
  | some c => some (c, 100)
  | none =>
    match equivScan t cands E with
    | some c => some (c, 95)
    | none =>
      match extractOne t (cands.map matcherNormalize) with
      | none => none
      | some (bn, sc) =>
        if 85 ≤ sc then
          (cands.find? (fun c => matcherNormalize c == bn)).map fun c => (c, sc)
        else none

/-! ## BasicDataVerifier (engine.py lines 110–338) -/

/-- The three document variants (`DocumentType` in models.py). -/
inductive DocumentType
  | internal
  | hospital
  | description
deriving DecidableEq, Repr

/-- The six extracted basic-data fields of one document (the per-document
dictionary built by `BasicDataVerifier.verify_case`); the extracted date
is modelled by its string form, which is what `_verify_date_field`
compares. -/
structure DocData where
  patientName : List Char
  patientId : List Char
  date : List Char
  city : List Char
  doctor : List Char
  procedure : List Char
deriving DecidableEq

/-- Result of one field verification: the `match` flag and whether a
discrepancy entry is present (the human-readable discrepancy strings
themselves are not modelled). -/
structure FieldResult where
  matched : Bool
  hasDiscrepancy : Bool
deriving DecidableEq, Repr

/-- `BasicDataVerifier._normalize_name` (engine.py lines 227–242): strip
accents, upper-case, strip, collapse whitespace, then delete each honorific
(`DR.`, `DRA.`, `DR`, `DRA`, `MD`, `M.D.` in that order), stripping after
each deletion. -/
def personNormalize (name : List Char) : List Char :=
  if name = [] then []
  else
    let s := pyStrip ((name.flatMap nfkdStrip).map pyUpper)
    let s := collapseWs s
    let s := pyStrip (pyReplace s "DR.".data [])
    let s := pyStrip (pyReplace s "DRA.".data [])
    let s := pyStrip (pyReplace s "DR".data [])
    let s := pyStrip (pyReplace s "DRA".data [])
    let s := pyStrip (pyReplace s "MD".data [])
    pyStrip (pyReplace s "M.D.".data [])

/-- `BasicDataVerifier._verify_name_field` (engine.py lines 194–225),
on the field values in document order internal, hospital, description.
Python's `set` iteration order is not deterministic; it is modelled here
as first-occurrence order, so the `base_name` the code picks is the first
distinct normalized value. -/
def verifyNameField (values : List (List Char)) : FieldResult :=
  let normVals := values.map fun v => if v = [] then [] else personNormalize v
  let uniq := normVals.eraseDups.filter (· ≠ [])
  if uniq.length ≤ 1 then ⟨true, false⟩
  else if uniq.any fun v => decide (indelSim (uniq.headD []) v < 85) then
    ⟨false, true⟩
  else ⟨true, false⟩

/-- `BasicDataVerifier._verify_id_field`: strip non-digits, then at most
one distinct nonempty value means match. -/
def verifyIdField (values : List (List Char)) : FieldResult :=
  let ids := values.map fun v => if v = [] then [] else v.filter isDigitC
  if (ids.eraseDups.filter (· ≠ [])).length ≤ 1 then ⟨true, false⟩
  else ⟨false, true⟩

/-- `BasicDataVerifier._verify_date_field`: compare the date strings; at
most one distinct nonempty value means match. -/
def verifyDateField (values : List (List Char)) : FieldResult :=
  if (values.eraseDups.filter (· ≠ [])).length ≤ 1 then ⟨true, false⟩
  else ⟨false, true⟩

/-- `rapidfuzz.fuzz.partial_ratio`, modelled from its documented contract:
the best `fuzz.ratio` alignment of the shorter string against windows of
the longer one; 100 when the shorter string is empty. -/
def partialRatio (a b : List Char) : ℚ :=
  let p := if a.length ≤ b.length then (a, b) else (b, a)
  if p.1 = [] then 100
  else
    ((List.range (p.2.length - p.1.length + 1)).map fun i =>
      indelSim p.1 ((p.2.drop i).take p.1.length)).foldl max 0

/-- `BasicDataVerifier._verify_procedure_field` (engine.py lines
319–338): fewer than two nonempty values match; otherwise the first
nonempty value is compared with `fuzz.partial_ratio` (lower-cased)
against each of the rest with threshold 70. -/
def verifyProcedureField (values : List (List Char)) : FieldResult :=
  let nonEmpty := values.filter (· ≠ [])
  if nonEmpty.length < 2 then ⟨true, false⟩
  else
    match nonEmpty with
    | [] => ⟨true, false⟩
    | base :: rest =>
      if rest.any fun p =>
          decide (partialRatio (base.map pyLower) (p.map pyLower) < 70) then
        ⟨false, true⟩
      else ⟨true, false⟩

/-- `BasicDataVerifier._verify_text_field` (engine.py lines 291–317):
all-empty is a mismatch; the procedure field delegates to
`verifyProcedureField`; the city field compares upper-cased stripped
values, at most one distinct value meaning match. -/
def verifyTextField (isProc : Bool) (values : List (List Char)) : FieldResult :=
  if values.all (· = []) then ⟨false, true⟩
  else if isProc then verifyProcedureField values
  else
    let uniq := (values.filterMap fun v =>
      if v = [] then none else some (pyStrip (v.map pyUpper))).eraseDups
    if uniq.length ≤ 1 then ⟨true, false⟩
    else ⟨false, true⟩

/-- The per-type document dictionary built by `verify_case`
(`doc_data[doc.document_type] = …`): Python dict semantics, the last
document of a type wins. -/
def docDataMap (docs : List (DocumentType × DocData)) (t : DocumentType) :
    Option DocData :=
  (docs.reverse.find? fun d => d.1 = t).map (·.2)

/-- `BasicDataVerifier._verify_field`: collect the field's value for each
of the three variants present, in the order internal, hospital,
description; fewer than three present is a mismatch. -/
def fieldValues (sel : DocData → List Char)
    (docs : List (DocumentType × DocData)) : Option (List (List Char)) :=
  match docDataMap docs .internal, docDataMap docs .hospital,
      docDataMap docs .description with
  | some a, some b, some c => some [sel a, sel b, sel c]
  | _, _, _ => none

/-- Dispatch of `_verify_field` for one field. -/
def verifyFieldWith (verifier : List (List Char) → FieldResult)
    (sel : DocData → List Char)
    (docs : List (DocumentType × DocData)) : FieldResult :=
  match fieldValues sel docs with
  | none => ⟨false, true⟩
  | some vals => verifier vals

/-- Result of `BasicDataVerifier.verify_case`.  On the
insufficient-documents path the code returns
`{'match': False, 'error': 'Faltan documentos. Se requieren 3, se
encontraron {n}', 'details': {}}`; the count `n` carried in the error
message is modelled by `errorCount`. -/
structure BasicResult where
  matched : Bool
  errorCount : Option Nat
  matchPercentage : Option ℚ
  fieldResults : List FieldResult

/-- `BasicDataVerifier.verify_case` (engine.py lines 113–165): exactly
three documents required, else the declared error result; otherwise the
six fields are verified and the match percentage is `matches / 6 × 100`
with overall threshold 80. -/
def basicVerifyCase (docs : List (DocumentType × DocData)) : BasicResult :=
  if docs.length ≠ 3 then ⟨false, some docs.length, none, []⟩
  else
    let results := [
      verifyFieldWith verifyNameField (·.patientName) docs,
      verifyFieldWith verifyIdField (·.patientId) docs,
      verifyFieldWith verifyDateField (·.date) docs,
      verifyFieldWith (verifyTextField false) (·.city) docs,
      verifyFieldWith verifyNameField (·.doctor) docs,
      verifyFieldWith (verifyTextField true) (·.procedure) docs]
    let pct : ℚ := results.countP (·.matched) / 6 * 100
    ⟨decide (80 ≤ pct), none, some pct, results⟩

/-! ## SupplyVerifier (engine.py lines 341–493) -/

/-- A stored `Supply` row as the verifiers see it. -/
structure Supply where
  name : List Char
  quantity : Int
  refCode : List Char
  lotCode : List Char
  udiLabelPresent : Bool
deriving DecidableEq

/-- `SupplyVerifier._find_supply_match` (engine.py lines 473–493): run
the matcher over the candidate names and return the first candidate
supply carrying the matched name, with the confidence. -/
def findSupplyMatch (E : EquivTable) (target : Supply)
    (cands : List Supply) : Option (Supply × ℚ) :=
  if cands = [] then none
  else
    match findMatch E target.name (cands.map (·.name)) with
    | none => none
    | some (mn, conf) =>
      (cands.find? fun s => s.name == mn).map fun s => (s, conf)

/-- Result of `SupplyVerifier._verify_single_supply` for one baseline
item (the evidence lists and the Boolean evaluation of lines 446–463). -/
structure SingleSupplyResult where
  hospitalMatch : Option (Supply × ℚ)
  descriptionMatch : Option (Supply × ℚ)
  nameMatch : Bool
  quantityMatch : Bool

/-- `SupplyVerifier._verify_single_supply` (engine.py lines 404–471):
find one match in the hospital items and one in the description items;
`name_match` is `any` over the found matches' confidence ≥ 85 checks,
`quantity_match` is `any` over the found matches' quantity-equality
checks (both `False` when no match was found at all). -/
def verifySingleSupply (E : EquivTable) (internal : Supply)
    (hosp desc : List Supply) : SingleSupplyResult :=
  let hm := findSupplyMatch E internal hosp
  let dm := findSupplyMatch E internal desc
  let nameMatches :=
    (hm.toList.map fun m => decide (85 ≤ m.2)) ++
      (dm.toList.map fun m => decide (85 ≤ m.2))
  let qtyMatches :=
    (hm.toList.map fun m => m.1.quantity == internal.quantity) ++
      (dm.toList.map fun m => m.1.quantity == internal.quantity)
  ⟨hm, dm, nameMatches.any id, qtyMatches.any id⟩

/-- Python dict construction from a keyed sequence: first-occurrence key
order, last value wins. -/
def dictOf (docs : List (DocumentType × List Supply)) :
    List (DocumentType × List Supply) :=
  docs.foldl (fun acc d =>
    if acc.any fun e => e.1 = d.1 then
      acc.map fun e => if e.1 = d.1 then d else e
    else acc ++ [d]) []

/-- Result of `SupplyVerifier.verify_supplies`; the error path returns a
dictionary without the percentage/count keys, modelled by `none`. -/
structure SupplyResult where
  matched : Bool
  error : Bool
  matchPercentage : Option ℚ
  totalSupplies : Option Nat
  matchedSupplies : Option Nat
  results : List SingleSupplyResult

/-- `SupplyVerifier.verify_supplies` (engine.py lines 347–402): group
supplies by document type; if any grouped document has no supplies,
return the declared error result; otherwise verify each internal
(baseline) supply and count those with both `quantity_match` and
`name_match`; percentage threshold 90. -/
def verifySupplies (E : EquivTable)
    (docs : List (DocumentType × List Supply)) : SupplyResult :=
  let byDoc := dictOf docs
  if byDoc.any fun e => e.2 = [] then ⟨false, true, none, none, none, []⟩
  else
    let internal := ((byDoc.find? fun e => e.1 = .internal).map (·.2)).getD []
    let hosp := ((byDoc.find? fun e => e.1 = .hospital).map (·.2)).getD []
    let desc := ((byDoc.find? fun e => e.1 = .description).map (·.2)).getD []
    let results := internal.map fun i => verifySingleSupply E i hosp desc
    let total := internal.length
    let nMatches := results.countP fun r => r.quantityMatch && r.nameMatch
    let pct : ℚ := if 0 < total then (nMatches : ℚ) / total * 100 else 0
    ⟨decide (90 ≤ pct), false, some pct, some total, some nMatches, results⟩

/-! ## VerificationEngine._calculate_overall_score (engine.py 641–665) -/

/-- Result of `TraceabilityVerifier.verify_traceability` as far as the
orchestrator consumes it (the error path carries no percentage). -/
structure TraceResult where
  complete : Bool
  completionPercentage : Option ℚ

/-- Python `round` to an integer: round half to even. -/
def roundHalfEven (q : ℚ) : ℤ :=
  let f := ⌊q⌋
  let r := q - f
  if r < 1 / 2 then f
  else if 1 / 2 < r then f + 1
  else if f % 2 = 0 then f else f + 1

/-- Python `round(x, 2)` modelled over `ℚ`. -/
def pyRound2 (q : ℚ) : ℚ :=
  (roundHalfEven (q * 100) : ℚ) / 100

/-- `VerificationEngine._calculate_overall_score`: weighted sum
`0.3·basic + 0.5·supplies + 0.2·traceability` of the sub-results'
percentages (`dict.get` default 0), rounded to two decimals. -/
def calculateOverallScore (b : BasicResult) (s : SupplyResult)
    (t : TraceResult) : ℚ :=
  pyRound2 (b.matchPercentage.getD 0 * (3 / 10) +
    s.matchPercentage.getD 0 * (5 / 10) +
    t.completionPercentage.getD 0 * (2 / 10))

/-! ## EquivalenceManager.add_equivalence (services.py lines 437–466) and
`SupplyEquivalence.add_alias` (models.py lines 106–110) -/

/-- A `SupplyEquivalence` row; the opaque `validated_by` user is
modelled by the flag `validated`. -/
structure SupplyEquivalence where
  canonicalName : List Char
  aliases : List (List Char)
  confidenceScore : ℚ
  isAutoGenerated : Bool
  validated : Bool

/-- `SupplyEquivalence.add_alias`: append the alias unless it is already
present case-insensitively. -/
def addAlias (e : SupplyEquivalence) (a : List Char) : SupplyEquivalence :=
  if (e.aliases.map fun x => x.map pyLower).contains (a.map pyLower) then e
  else { e with aliases := e.aliases ++ [a] }

/-- `EquivalenceManager.add_equivalence`: normalize all names; create the
entry if the canonical name is new (confidence 0.8 if auto-generated else
1.0), otherwise merge the aliases through `add_alias` and validate the
entry if a submitter is now provided.  The table (unique canonical names)
is modelled as a list of entries. -/
def addEquivalence (store : List SupplyEquivalence) (canonicalName : List Char)
    (aliases : List (List Char)) (hasUser isAuto : Bool) :
    List SupplyEquivalence :=
  let can := equivNormalize canonicalName
  let als := aliases.map equivNormalize
  match store.find? fun e => e.canonicalName == can with
  | none => store ++ [⟨can, als, if isAuto then 8 / 10 else 1, isAuto, hasUser⟩]
  | some e =>
    let e1 := als.foldl addAlias e
    let e2 := if hasUser && !e1.validated then
        { e1 with validated := true, confidenceScore := 1 }
      else e1
    store.map fun x => if x.canonicalName == can then e2 else x

/-! ## The three supply extractors (parsers.py lines 203–223, 260–276,
312–350)

Each line-item regex is modelled by a leftmost, non-overlapping scanner
with the backtracking behaviour of the concrete pattern worked out
against Python `re` semantics. -/

/-- The item-name character class `[A-Za-záéíóúñ\s\d\.,x×-]` under
`re.IGNORECASE` (which adds the upper-case accented letters). -/
def supplyNameClass (c : Char) : Bool :=
  ('A' ≤ c && c ≤ 'Z') || ('a' ≤ c && c ≤ 'z') ||
  c = 'á' || c = 'é' || c = 'í' || c = 'ó' || c = 'ú' || c = 'ñ' ||
  c = 'Á' || c = 'É' || c = 'Í' || c = 'Ó' || c = 'Ú' || c = 'Ñ' ||
  isPyWs c || isDigitC c || c = '.' || c = ',' || c = 'x' || c = '×' || c = '-'

/-- Case folding for `re.IGNORECASE` literal matching over the modelled
repertoire (ASCII plus the Spanish accented letters). -/
def foldCase (c : Char) : Char :=
  if c = 'Á' then 'á' else if c = 'É' then 'é' else
  if c = 'Í' then 'í' else if c = 'Ó' then 'ó' else
  if c = 'Ú' then 'ú' else if c = 'Ñ' then 'ñ' else
  if c = 'Ü' then 'ü' else pyLower c

/-- Case-insensitive literal prefix match; returns the rest on success. -/
def ciPrefix : List Char → List Char → Option (List Char)
  | [], s => some s
  | _ :: _, [] => none
  | p :: ps, c :: cs => if foldCase c = foldCase p then ciPrefix ps cs else none

/-- The `[A-Z0-9]` class of the REF/LOT code groups under
`re.IGNORECASE`. -/
def isRefCodeChar (c : Char) : Bool :=
  ('A' ≤ c && c ≤ 'Z') || ('a' ≤ c && c ≤ 'z') || isDigitC c

/-- `int(tok) if tok.isdigit() else 1` — the quantity of a parsed line
item, defaulting to 1 when the token is unparsable. -/
def digitsToNat (d : List Char) : Nat :=
  d.foldl (fun a c => a * 10 + (c.toNat - '0'.toNat)) 0

/-- Quantity from the captured quantity token. -/
def pyQuantity (d : List Char) : Int :=
  if d ≠ [] && d.all isDigitC then (digitsToNat d : Int) else 1

/-- A line item of the internal (baseline) report parser. -/
structure ParsedSupplyFull where
  name : List Char
  quantity : Int
  refCode : List Char
  lotCode : List Char
  udiLabelPresent : Bool
deriving DecidableEq

/-- A line item of the hospital / description parsers (no traceability
keys). -/
structure ParsedSupplySimple where
  name : List Char
  quantity : Int
deriving DecidableEq

/-- The optional group `(?:\s*REF[:\s]*([A-Z0-9]+))?` (and the analogous
LOT group): whitespace, the keyword (case-insensitive), a run of `:`/
whitespace, then a nonempty code; on failure nothing is consumed and the
captured code is empty. -/
def optCode (kw : List Char) (s : List Char) : List Char × List Char :=
  match ciPrefix kw (s.dropWhile isPyWs) with
  | none => ([], s)
  | some r2 =>
    let r3 := r2.dropWhile fun c => c = ':' || isPyWs c
    let code := r3.takeWhile isRefCodeChar
    if code = [] then ([], s) else (code, r3.dropWhile isRefCodeChar)

/-- The optional group `(\s*\[UDI\])?`; `udi_label_present` is the truth
of the captured text, which is nonempty exactly when the group matched. -/
def optUdi (s : List Char) : Bool × List Char :=
  match ciPrefix "[udi]".data (s.dropWhile isPyWs) with
  | some r2 => (true, r2)
  | none => (false, s)

/-- Expect one literal character; return the rest on success. -/
def expectChar (c : Char) : List Char → Option (List Char)
  | d :: r => if d = c then some r else none
  | [] => none

/-- One match attempt of the internal-report item pattern
`([A-Za-záéíóúñ\s\d\.,x×-]+)\s*\((\d+)\)(?:\s*REF[:\s]*([A-Z0-9]+))?
(?:\s*LOT[:\s]*([A-Z0-9]+))?(\s*\[UDI\])?` at the start of `s`.  Since
`(` is outside the name class and whitespace is inside it, the pattern
matches exactly a nonempty maximal class run followed directly by
`(<digits>)`. -/
def matchInternalAt (s : List Char) : Option (ParsedSupplyFull × List Char) :=
  if s.takeWhile supplyNameClass = [] then none
  else
    (expectChar '(' (s.dropWhile supplyNameClass)).bind fun r2 =>
      if r2.takeWhile isDigitC = [] then none
      else
        (expectChar ')' (r2.dropWhile isDigitC)).bind fun r3 =>
          let rc := optCode "ref".data r3
          let lc := optCode "lot".data rc.2
          let u := optUdi lc.2
          some (⟨pyStrip (s.takeWhile supplyNameClass),
            pyQuantity (r2.takeWhile isDigitC), rc.1, lc.1, u.1⟩, u.2)

/-- Fuel-driven `re.findall` scan for the internal-report item pattern:
try a match at each position, consume it on success, advance one
character on failure. -/
def scanInternalF : Nat → List Char → List ParsedSupplyFull
  | 0, _ => []
  | _ + 1, [] => []
  | f + 1, c :: cs =>
    match matchInternalAt (c :: cs) with
    | some (sup, rest) => sup :: scanInternalF f rest
    | none => scanInternalF f cs

/-- `InternalReportParser._extract_supplies_with_traceability`. -/
def extractSuppliesInternal (text : List Char) : List ParsedSupplyFull :=
  scanInternalF text.length text

/-- One match attempt of the simple item pattern
`([A-Za-záéíóúñ\s\d\.,x×-]+)\s*\((\d+)\)`. -/
def matchSimpleAt (s : List Char) : Option (ParsedSupplySimple × List Char) :=
  if s.takeWhile supplyNameClass = [] then none
  else
    (expectChar '(' (s.dropWhile supplyNameClass)).bind fun r2 =>
      if r2.takeWhile isDigitC = [] then none
      else
        (expectChar ')' (r2.dropWhile isDigitC)).bind fun r3 =>
          some (⟨pyStrip (s.takeWhile supplyNameClass),
            pyQuantity (r2.takeWhile isDigitC)⟩, r3)

/-- Fuel-driven scan for the simple item pattern. -/
def scanSimpleF : Nat → List Char → List ParsedSupplySimple
  | 0, _ => []
  | _ + 1, [] => []
  | f + 1, c :: cs =>
    match matchSimpleAt (c :: cs) with
    | some (sup, rest) => sup :: scanSimpleF f rest
    | none => scanSimpleF f cs

/-- `HospitalReportParser._extract_supplies_simple`. -/
def extractSuppliesHospital (text : List Char) : List ParsedSupplySimple :=
  scanSimpleF text.length text

/-- One `re.search` attempt of a section pattern
`<KW>[:\s]*(?P<g>[^\.]+)` at the start of `s`: the keyword
(case-insensitive), a greedy `[:\s]*` run, then a nonempty dot-free body;
when the body after the run is empty the engine backtracks one `[:\s]`
character into the capture. -/
def matchSectionAt (kw : List Char) (s : List Char) : Option (List Char) :=
  match ciPrefix kw s with
  | none => none
  | some r =>
    let run := r.takeWhile fun c => c = ':' || isPyWs c
    let body := (r.dropWhile fun c => c = ':' || isPyWs c).takeWhile (· ≠ '.')
    if body ≠ [] then some body
    else
      match run.getLast? with
      | some c => some [c]
      | none => none

/-- `re.search` of a section pattern: first matching position. -/
def searchSection (kw : List Char) : List Char → Option (List Char)
  | [] => none
  | c :: cs =>
    match matchSectionAt kw (c :: cs) with
    | some b => some b
    | none => searchSection kw cs

/-- The concatenated `supply_text` built by
`SurgicalDescriptionParser._extract_supplies_from_description` from the
four labeled sections (each matched section contributes its named group
plus one space). -/
def descriptionSupplyText (text : List Char) : List Char :=
  ["materiales".data, "insumos".data, "se utilizó".data,
      "implantes".data].foldl
    (fun acc kw =>
      match searchSection kw text with
      | some b => acc ++ b ++ [' ']
      | none => acc) []

/-- One match attempt of the description fallback pattern
`(?P<quantity>\d+)\s+(?P<name>[A-Za-záéíóúñ\s\d\.,x×-]+)`: digits, at
least one whitespace, then a nonempty name-class run; when the class run
after the maximal whitespace is empty the engine backtracks the last
whitespace character into the name (possible only with two or more
whitespace characters). -/
def matchQtyNameAt (s : List Char) : Option (ParsedSupplySimple × List Char) :=
  let d := s.takeWhile isDigitC
  if d = [] then none
  else
    let r1 := s.dropWhile isDigitC
    let w := r1.takeWhile isPyWs
    if w = [] then none
    else
      let r2 := r1.dropWhile isPyWs
      let nm := r2.takeWhile supplyNameClass
      if nm ≠ [] then
        some (⟨pyStrip nm, pyQuantity d⟩, r2.dropWhile supplyNameClass)
      else if 2 ≤ w.length then
        some (⟨pyStrip [w.getLastD ' '], pyQuantity d⟩, r2)
      else none

/-- Fuel-driven scan for the quantity-name fallback pattern. -/
def scanQtyNameF : Nat → List Char → List ParsedSupplySimple
  | 0, _ => []
  | _ + 1, [] => []
  | f + 1, c :: cs =>
    match matchQtyNameAt (c :: cs) with
    | some (sup, rest) => sup :: scanQtyNameF f rest
    | none => scanQtyNameF f cs

/-- `SurgicalDescriptionParser._extract_supplies_from_description`:
collect the labeled sections; if any text was found, run both fallback
item patterns over it and concatenate their matches. -/
def extractSuppliesDescription (text : List Char) : List ParsedSupplySimple :=
  let st := descriptionSupplyText text
  if st = [] then []
  else scanQtyNameF st.length st ++ scanSimpleF st.length st

/-! ## Derived notions used by the verification statements -/

/-- The stored aliases of one equivalence entry are duplicate-free when
compared case-insensitively. -/
def aliasNodup (e : SupplyEquivalence) : Prop :=
  (e.aliases.map fun a => a.map pyLower).Nodup

/-- The distinct nonempty normalized values collected by
`_verify_name_field` (in first-occurrence order, the model of Python's
set iteration). -/
def nameFieldUniq (values : List (List Char)) : List (List Char) :=
  ((values.map fun v => if v = [] then [] else personNormalize v).eraseDups).filter
    (· ≠ [])

/-- The character domain on which the two name normalizers agree:
unaccented letters, digits, space, comma, hyphen and underscore (no
`×`, no `.`, no characters outside both normalizers' allowed classes). -/
def safeChar (c : Char) : Bool :=
  ('a' ≤ c && c ≤ 'z') || ('A' ≤ c && c ≤ 'Z') || isDigitC c ||
    c = ' ' || c = ',' || c = '-' || c = '_'

/-- `safeChar` restricted to the image of lower-casing. -/
def safeLow (c : Char) : Bool :=
  ('a' ≤ c && c ≤ 'z') || isDigitC c || c = ' ' || c = ',' || c = '-' || c = '_'

/-! ## Theorems -/

/-! ### Quantities produced by the extractors (C8) -/

theorem pyQuantity_nonneg (d : List Char) : 0 ≤ pyQuantity d := by
  unfold pyQuantity
  split
  · exact Int.ofNat_nonneg _
  · norm_num

theorem matchInternalAt_quantity_nonneg {s : List Char}
    {sup : ParsedSupplyFull} {rest : List Char}
    (h : matchInternalAt s = some (sup, rest)) : 0 ≤ sup.quantity := by
  unfold matchInternalAt at h
  by_cases h1 : s.takeWhile supplyNameClass = []
  · rw [if_pos h1] at h; cases h
  · rw [if_neg h1] at h
    cases h2 : expectChar '(' (s.dropWhile supplyNameClass) with
    | none => rw [h2, Option.none_bind] at h; cases h
    | some r2 =>
      simp only [h2, Option.some_bind] at h
      by_cases h3 : r2.takeWhile isDigitC = []
      · rw [if_pos h3] at h; cases h
      · rw [if_neg h3] at h
        cases h4 : expectChar ')' (r2.dropWhile isDigitC) with
        | none => rw [h4, Option.none_bind] at h; cases h
        | some r3 =>
          simp only [h4, Option.some_bind, Option.some.injEq, Prod.mk.injEq] at h
          rcases h with ⟨rfl, rfl⟩
          exact pyQuantity_nonneg _

theorem matchSimpleAt_quantity_nonneg {s : List Char}
    {sup : ParsedSupplySimple} {rest : List Char}
    (h : matchSimpleAt s = some (sup, rest)) : 0 ≤ sup.quantity := by
  unfold matchSimpleAt at h
  by_cases h1 : s.takeWhile supplyNameClass = []
  · rw [if_pos h1] at h; cases h
  · rw [if_neg h1] at h
    cases h2 : expectChar '(' (s.dropWhile supplyNameClass) with
    | none => rw [h2, Option.none_bind] at h; cases h
    | some r2 =>
      simp only [h2, Option.some_bind] at h
      by_cases h3 : r2.takeWhile isDigitC = []
      · rw [if_pos h3] at h; cases h
      · rw [if_neg h3] at h
        cases h4 : expectChar ')' (r2.dropWhile isDigitC) with
        | none => rw [h4, Option.none_bind] at h; cases h
        | some r3 =>
          simp only [h4, Option.some_bind, Option.some.injEq, Prod.mk.injEq] at h
          rcases h with ⟨rfl, rfl⟩
          exact pyQuantity_nonneg _

theorem matchQtyNameAt_quantity_nonneg {s : List Char}
    {sup : ParsedSupplySimple} {rest : List Char}
    (h : matchQtyNameAt s = some (sup, rest)) : 0 ≤ sup.quantity := by
  simp only [matchQtyNameAt] at h
  by_cases h1 : s.takeWhile isDigitC = []
  · rw [if_pos h1] at h; cases h
  · rw [if_neg h1] at h
    by_cases h2 : (s.dropWhile isDigitC).takeWhile isPyWs = []
    · rw [if_pos h2] at h; cases h
    · rw [if_neg h2] at h
      by_cases h3 :
          ((s.dropWhile isDigitC).dropWhile isPyWs).takeWhile supplyNameClass ≠ []
      · rw [if_pos h3] at h
        simp only [Option.some.injEq, Prod.mk.injEq] at h
        rcases h with ⟨rfl, rfl⟩
        exact pyQuantity_nonneg _
      · rw [if_neg h3] at h
        by_cases h4 : 2 ≤ ((s.dropWhile isDigitC).takeWhile isPyWs).length
        · rw [if_pos h4] at h
          simp only [Option.some.injEq, Prod.mk.injEq] at h
          rcases h with ⟨rfl, rfl⟩
          exact pyQuantity_nonneg _
        · rw [if_neg h4] at h; cases h

theorem scanInternalF_succ_cons (f : Nat) (c : Char) (cs : List Char) :
    scanInternalF (f + 1) (c :: cs) =
      match matchInternalAt (c :: cs) with
      | some (sup, rest) => sup :: scanInternalF f rest
      | none => scanInternalF f cs := rfl

theorem scanSimpleF_succ_cons (f : Nat) (c : Char) (cs : List Char) :
    scanSimpleF (f + 1) (c :: cs) =
      match matchSimpleAt (c :: cs) with
      | some (sup, rest) => sup :: scanSimpleF f rest
      | none => scanSimpleF f cs := rfl

theorem scanQtyNameF_succ_cons (f : Nat) (c : Char) (cs : List Char) :
    scanQtyNameF (f + 1) (c :: cs) =
      match matchQtyNameAt (c :: cs) with
      | some (sup, rest) => sup :: scanQtyNameF f rest
      | none => scanQtyNameF f cs := rfl

theorem scanInternalF_quantity_nonneg :
    ∀ (f : Nat) (s : List Char), ∀ sup ∈ scanInternalF f s, 0 ≤ sup.quantity := by
  intro f
  induction f with
  | zero => intro s sup h; cases h
  | succ f ih =>
    intro s sup h
    cases s with
    | nil => cases h
    | cons c cs =>
      rw [scanInternalF_succ_cons] at h
      cases hm : matchInternalAt (c :: cs) with
      | none =>
        rw [hm] at h
        exact ih cs sup h
      | some pr =>
        obtain ⟨sp, rest⟩ := pr
        rw [hm] at h
        rcases List.mem_cons.mp h with h1 | h2
        · subst h1; exact matchInternalAt_quantity_nonneg hm
        · exact ih rest sup h2

theorem scanSimpleF_quantity_nonneg :
    ∀ (f : Nat) (s : List Char), ∀ sup ∈ scanSimpleF f s, 0 ≤ sup.quantity := by
  intro f
  induction f with
  | zero => intro s sup h; cases h
  | succ f ih =>
    intro s sup h
    cases s with
    | nil => cases h
    | cons c cs =>
      rw [scanSimpleF_succ_cons] at h
      cases hm : matchSimpleAt (c :: cs) with
      | none =>
        rw [hm] at h
        exact ih cs sup h
      | some pr =>
        obtain ⟨sp, rest⟩ := pr
        rw [hm] at h
        rcases List.mem_cons.mp h with h1 | h2
        · subst h1; exact matchSimpleAt_quantity_nonneg hm
        · exact ih rest sup h2

theorem scanQtyNameF_quantity_nonneg :
    ∀ (f : Nat) (s : List Char), ∀ sup ∈ scanQtyNameF f s, 0 ≤ sup.quantity := by
  intro f
  induction f with
  | zero => intro s sup h; cases h
  | succ f ih =>
    intro s sup h
    cases s with
    | nil => cases h
    | cons c cs =>
      rw [scanQtyNameF_succ_cons] at h
      cases hm : matchQtyNameAt (c :: cs) with
      | none =>
        rw [hm] at h
        exact ih cs sup h
      | some pr =>
        obtain ⟨sp, rest⟩ := pr
        rw [hm] at h
        rcases List.mem_cons.mp h with h1 | h2
        · subst h1; exact matchQtyNameAt_quantity_nonneg hm
        · exact ih rest sup h2

/-- C8 (corrected): every line item produced by any of the three supply
extractors has a nonnegative integer quantity; the default of 1 applies
when the quantity token is unparsable as a number.  (The original claim
of strict positivity fails: a literal `(0)` quantity token parses to 0,
see the counterexample.) -/
theorem extractors_quantity_nonneg (text : List Char) :
    ((extractSuppliesInternal text).all fun s => decide (0 ≤ s.quantity)) = true ∧
    ((extractSuppliesHospital text).all fun s => decide (0 ≤ s.quantity)) = true ∧
    ((extractSuppliesDescription text).all fun s => decide (0 ≤ s.quantity)) = true := by
  refine ⟨?_, ?_, ?_⟩
  · rw [List.all_eq_true]
    intro s hs
    exact decide_eq_true (scanInternalF_quantity_nonneg _ _ s hs)
  · rw [List.all_eq_true]
    intro s hs
    exact decide_eq_true (scanSimpleF_quantity_nonneg _ _ s hs)
  · rw [List.all_eq_true]
    intro s hs
    simp only [extractSuppliesDescription] at hs
    by_cases hst : descriptionSupplyText text = []
    · rw [if_pos hst] at hs; cases hs
    · rw [if_neg hst] at hs
      rcases List.mem_append.mp hs with h | h
      · exact decide_eq_true (scanQtyNameF_quantity_nonneg _ _ s h)
      · exact decide_eq_true (scanSimpleF_quantity_nonneg _ _ s h)

/-- C8 counterexample: the baseline extractor parses the line
`Gasa (0)` to a line item of quantity 0, which is not positive. -/
theorem extractInternal_zero_quantity :
    ¬ ∀ s ∈ extractSuppliesInternal "Gasa (0)".data, 0 < s.quantity := by
  decide

/-! ### Idempotence of the supply-name normalizer (C5) -/

/-- C5 (code bug): the supply-name normalizer is not idempotent.  On
`"standardd"` the synonym fold `standard → estandar` produces
`"estandard"`, which itself still contains `standard` and is rewritten
again to `"eestandar"` by a second application. -/
theorem matcherNormalize_not_idempotent :
    matcherNormalize (matcherNormalize "standardd".data) ≠
      matcherNormalize "standardd".data := by
  decide

/-! ### The two normalizers (C3) -/

/-- C3 counterexample: the Supply Matcher keeps a multiplication sign
that is not between digits (its character class admits `×` and its
dimension rewrite requires digits on both sides), while the Equivalence
Manager folds every `×` to `x` up front, so the two normalizers disagree
on `"a×b"`. -/
theorem normalizers_differ :
    matcherNormalize "a×b".data ≠ equivNormalize "a×b".data := by
  decide

/-! ### BasicDataVerifier precondition (C6) -/

/-- C6 (confirmed): a case whose document count differs from three makes
`BasicDataVerifier.verify_case` return the declared error result — a
non-match carrying the observed count — rather than raising (the
embedding is a total function). -/
theorem basicVerifyCase_wrong_count (docs : List (DocumentType × DocData))
    (h : docs.length ≠ 3) :
    (basicVerifyCase docs).matched = false ∧
      (basicVerifyCase docs).errorCount = some docs.length := by
  unfold basicVerifyCase
  rw [if_pos h]
  exact ⟨rfl, rfl⟩

/-- Witness for C6: a case with exactly two documents yields the error
result carrying count 2. -/
theorem basicVerifyCase_wrong_count_witness :
    (basicVerifyCase [(.internal, ⟨[], [], [], [], [], []⟩),
        (.hospital, ⟨[], [], [], [], [], []⟩)]).matched = false ∧
      (basicVerifyCase [(.internal, ⟨[], [], [], [], [], []⟩),
        (.hospital, ⟨[], [], [], [], [], []⟩)]).errorCount = some 2 := by
  have h := basicVerifyCase_wrong_count
    [(.internal, ⟨[], [], [], [], [], []⟩), (.hospital, ⟨[], [], [], [], [], []⟩)]
    (by decide)
  exact ⟨h.1, h.2⟩

/-! ### Overall score (C7) -/

/-- C7 (confirmed): the engine's overall score is
`0.3·basic + 0.5·supplies + 0.2·traceability` rounded to two decimals,
and for basic = 80, supplies = 90, traceability = 95 it is exactly 88. -/
theorem overallScore_weighted (b s t : ℚ) :
    calculateOverallScore ⟨true, none, some b, []⟩
        ⟨true, false, some s, none, none, []⟩ ⟨true, some t⟩ =
      pyRound2 (b * (3 / 10) + s * (5 / 10) + t * (2 / 10)) ∧
    calculateOverallScore ⟨true, none, some 80, []⟩
        ⟨true, false, some 90, none, none, []⟩ ⟨true, some 95⟩ = 88 := by
  constructor
  · rfl
  · show pyRound2 (Option.getD (some 80) 0 * (3 / 10) +
        Option.getD (some 90) 0 * (5 / 10) +
        Option.getD (some 95) 0 * (2 / 10)) = 88
    rw [show Option.getD (some (80 : ℚ)) 0 * (3 / 10) +
        Option.getD (some (90 : ℚ)) 0 * (5 / 10) +
        Option.getD (some (95 : ℚ)) 0 * (2 / 10) = 88 by
      simp only [Option.getD]; norm_num]
    have hfl : roundHalfEven ((88 : ℚ) * 100) = 8800 := by
      simp only [roundHalfEven]
      rw [show (88 : ℚ) * 100 = ((8800 : ℤ) : ℚ) by norm_num]
      rw [Int.floor_intCast]
      rw [if_pos (by norm_num : ((8800 : ℤ) : ℚ) - ((8800 : ℤ) : ℚ) < 1 / 2)]
    unfold pyRound2
    rw [hfl]
    norm_num

/-! ### EquivalenceManager.add_equivalence (C9) -/

theorem addAlias_aliasNodup {e : SupplyEquivalence} {a : List Char}
    (h : aliasNodup e) : aliasNodup (addAlias e a) := by
  unfold addAlias
  split
  · exact h
  · rename_i hc
    unfold aliasNodup at *
    simp only [List.map_append, List.map_cons, List.map_nil]
    rw [List.nodup_append]
    refine ⟨h, List.nodup_singleton _, ?_⟩
    intro x hx hx1
    rw [List.mem_singleton] at hx1
    subst hx1
    exact hc (by simpa using hx)

theorem foldl_addAlias_aliasNodup {e : SupplyEquivalence}
    (ls : List (List Char)) (h : aliasNodup e) :
    aliasNodup (ls.foldl addAlias e) := by
  induction ls generalizing e with
  | nil => exact h
  | cons a ls ih => exact ih (addAlias_aliasNodup h)

theorem addEquivalence_aliasNodup {store : List SupplyEquivalence}
    (hstore : ∀ e ∈ store, aliasNodup e) (cn : List Char)
    {aliases : List (List Char)}
    (hals : ((aliases.map equivNormalize).map fun a => a.map pyLower).Nodup)
    (hasUser isAuto : Bool) :
    ∀ e ∈ addEquivalence store cn aliases hasUser isAuto, aliasNodup e := by
  intro e he
  simp only [addEquivalence] at he
  cases hf : store.find? fun x => x.canonicalName == equivNormalize cn with
  | none =>
    rw [hf] at he
    rcases List.mem_append.mp he with h | h
    · exact hstore e h
    · rw [List.mem_singleton] at h
      subst h
      exact hals
  | some e0 =>
    rw [hf] at he
    rcases List.mem_map.mp he with ⟨x, hx, hxe⟩
    have h0 : aliasNodup e0 := hstore e0 (List.mem_of_find?_eq_some hf)
    have h1 : aliasNodup ((aliases.map equivNormalize).foldl addAlias e0) :=
      foldl_addAlias_aliasNodup _ h0
    by_cases hcan : (x.canonicalName == equivNormalize cn) = true
    · rw [if_pos hcan] at hxe
      subst hxe
      by_cases hv :
          (hasUser && !((aliases.map equivNormalize).foldl addAlias e0).validated) = true
      · rw [if_pos hv]; exact h1
      · rw [if_neg hv]; exact h1
    · rw [if_neg hcan] at hxe
      subst hxe
      exact hstore x hx

/-- C9 (corrected): two identical `add_equivalence` calls never introduce
duplicate aliases — provided the normalized alias list of a call is
itself free of case-insensitive duplicates.  (As stated the claim fails:
a single call whose own alias list contains case variants of one name
stores the duplicates verbatim at creation, see the counterexample.) -/
theorem addEquivalence_twice_aliasNodup (store : List SupplyEquivalence)
    (cn : List Char) (aliases : List (List Char)) (hasUser isAuto : Bool)
    (hstore : ∀ e ∈ store, aliasNodup e)
    (hals : ((aliases.map equivNormalize).map fun a => a.map pyLower).Nodup) :
    ∀ e ∈ addEquivalence (addEquivalence store cn aliases hasUser isAuto)
        cn aliases hasUser isAuto, aliasNodup e :=
  addEquivalence_aliasNodup
    (addEquivalence_aliasNodup hstore cn hals hasUser isAuto) cn hals hasUser isAuto

/-- Witness for C9: two identical calls on an empty store with the
duplicate-free alias list `["screw", "other"]`. -/
theorem addEquivalence_twice_aliasNodup_witness :
    aliasNodup ⟨"c".data, ["screw".data, "other".data], 1, false, false⟩ := by
  have h := addEquivalence_twice_aliasNodup [] "c".data
    ["screw".data, "other".data] false false (by simp) (by decide)
  exact h _ (by
    show _ ∈ addEquivalence (addEquivalence [] "c".data
      ["screw".data, "other".data] false false) "c".data
      ["screw".data, "other".data] false false
    rw [show addEquivalence (addEquivalence [] "c".data
        ["screw".data, "other".data] false false) "c".data
        ["screw".data, "other".data] false false =
        [⟨"c".data, ["screw".data, "other".data], 1, false, false⟩] from rfl]
    exact List.mem_singleton.mpr rfl)

/-- C9 counterexample: a single call (repeated identically) whose alias
list contains the case variants `Screw`/`screw` of one name stores the
normalized alias twice, a case-insensitive duplicate. -/
theorem addEquivalence_duplicate_aliases :
    ((addEquivalence (addEquivalence [] "c".data
        ["Screw".data, "screw".data] false false) "c".data
        ["Screw".data, "screw".data] false false).map (·.aliases)) =
      [["screw".data, "screw".data]] ∧
    ¬ (["screw".data, "screw".data].map fun a => a.map pyLower).Nodup := by
  exact ⟨by decide, by decide⟩

/-! ### Bounds of the similarity scores -/

theorem lcsF_le_left : ∀ (f : Nat) (a b : List Char), lcsF f a b ≤ a.length := by
  intro f
  induction f with
  | zero => intro a b; exact Nat.zero_le _
  | succ f ih =>
    intro a b
    cases a with
    | nil => exact Nat.zero_le _
    | cons x as =>
      cases b with
      | nil => exact Nat.zero_le _
      | cons y bs =>
        rw [show lcsF (f + 1) (x :: as) (y :: bs) =
          if x = y then lcsF f as bs + 1
          else max (lcsF f as (y :: bs)) (lcsF f (x :: as) bs) from rfl]
        by_cases hxy : x = y
        · rw [if_pos hxy]
          simpa using Nat.succ_le_succ (ih as bs)
        · rw [if_neg hxy]
          refine max_le ?_ ?_
          · exact le_trans (ih as (y :: bs)) (by simp)
          · exact ih (x :: as) bs

theorem lcsF_le_right : ∀ (f : Nat) (a b : List Char), lcsF f a b ≤ b.length := by
  intro f
  induction f with
  | zero => intro a b; exact Nat.zero_le _
  | succ f ih =>
    intro a b
    cases a with
    | nil => exact Nat.zero_le _
    | cons x as =>
      cases b with
      | nil => exact Nat.zero_le _
      | cons y bs =>
        rw [show lcsF (f + 1) (x :: as) (y :: bs) =
          if x = y then lcsF f as bs + 1
          else max (lcsF f as (y :: bs)) (lcsF f (x :: as) bs) from rfl]
        by_cases hxy : x = y
        · rw [if_pos hxy]
          simpa using Nat.succ_le_succ (ih as bs)
        · rw [if_neg hxy]
          refine max_le ?_ ?_
          · exact ih as (y :: bs)
          · exact le_trans (ih (x :: as) bs) (by simp)

theorem indelSim_nonneg (a b : List Char) : 0 ≤ indelSim a b := by
  unfold indelSim
  split
  · norm_num
  · apply div_nonneg
    · positivity
    · positivity

theorem indelSim_le_100 (a b : List Char) : indelSim a b ≤ 100 := by
  unfold indelSim
  split
  · exact le_refl _
  · rename_i h
    have hpos : (0 : ℚ) < (a.length : ℚ) + (b.length : ℚ) := by
      have : 0 < a.length + b.length := Nat.pos_of_ne_zero h
      exact_mod_cast this
    rw [div_le_iff₀ hpos]
    have h1 : lcs a b ≤ a.length := lcsF_le_left _ a b
    have h2 : lcs a b ≤ b.length := lcsF_le_right _ a b
    have h3 : (lcs a b : ℚ) ≤ (a.length : ℚ) := by exact_mod_cast h1
    have h4 : (lcs a b : ℚ) ≤ (b.length : ℚ) := by exact_mod_cast h2
    nlinarith

theorem tokenSortRatio_nonneg (a b : List Char) : 0 ≤ tokenSortRatio a b :=
  indelSim_nonneg _ _

theorem tokenSortRatio_le_100 (a b : List Char) : tokenSortRatio a b ≤ 100 :=
  indelSim_le_100 _ _

/-! ### process.extractOne and the equivalence scan -/

theorem extractOneAux_cases (q : List Char) :
    ∀ (l : List (List Char)) (best : List Char × ℚ),
      extractOneAux q best l = best ∨
        ∃ c ∈ l, extractOneAux q best l = (c, tokenSortRatio q c) := by
  intro l
  induction l with
  | nil => intro best; exact Or.inl rfl
  | cons c cs ih =>
    intro best
    rw [show extractOneAux q best (c :: cs) =
      if best.2 < tokenSortRatio q c then extractOneAux q (c, tokenSortRatio q c) cs
      else extractOneAux q best cs from rfl]
    by_cases hlt : best.2 < tokenSortRatio q c
    · rw [if_pos hlt]
      rcases ih (c, tokenSortRatio q c) with h | ⟨d, hd, h⟩
      · exact Or.inr ⟨c, List.mem_cons_self .., h⟩
      · exact Or.inr ⟨d, List.mem_cons_of_mem _ hd, h⟩
    · rw [if_neg hlt]
      rcases ih best with h | ⟨d, hd, h⟩
      · exact Or.inl h
      · exact Or.inr ⟨d, List.mem_cons_of_mem _ hd, h⟩

/-- The choice returned by `extractOne` is one of the choices and its
score is that choice's `token_sort_ratio` against the query. -/
theorem extractOne_spec {q : List Char} {l : List (List Char)}
    {bn : List Char} {sc : ℚ} (h : extractOne q l = some (bn, sc)) :
    bn ∈ l ∧ sc = tokenSortRatio q bn := by
  cases l with
  | nil => cases h
  | cons c cs =>
    rw [show extractOne q (c :: cs) =
      some (extractOneAux q (c, tokenSortRatio q c) cs) from rfl] at h
    rcases extractOneAux_cases q cs (c, tokenSortRatio q c) with he | ⟨d, hd, he⟩
    · rw [he] at h
      rcases Option.some_injective _ h with h2
      have hbn : bn = c := (congrArg Prod.fst h2).symm
      have hsc : sc = tokenSortRatio q c := (congrArg Prod.snd h2).symm
      subst hbn
      exact ⟨List.mem_cons_self .., hsc⟩
    · rw [he] at h
      rcases Option.some_injective _ h with h2
      have hbn : bn = d := (congrArg Prod.fst h2).symm
      have hsc : sc = tokenSortRatio q d := (congrArg Prod.snd h2).symm
      subst hbn
      exact ⟨List.mem_cons_of_mem _ hd, hsc⟩

theorem equivScan_cons (t : List Char) (cands : List (List Char))
    (can : List Char) (al : List (List Char)) (es : EquivTable) :
    equivScan t cands ((can, al) :: es) =
      if t ∈ al then
        match cands.find? (fun c =>
            matcherNormalize c == can || al.contains (matcherNormalize c)) with
        | some c => some c
        | none => equivScan t cands es
      else equivScan t cands es := rfl

theorem equivScan_mem {t : List Char} {cands : List (List Char)} :
    ∀ {E : EquivTable} {c : List Char},
      equivScan t cands E = some c → c ∈ cands := by
  intro E
  induction E with
  | nil => intro c h; cases h
  | cons p es ih =>
    intro c h
    obtain ⟨can, al⟩ := p
    rw [equivScan_cons] at h
    by_cases ht : t ∈ al
    · rw [if_pos ht] at h
      cases hf : cands.find? (fun c =>
          matcherNormalize c == can || al.contains (matcherNormalize c)) with
      | some d =>
        rw [hf] at h
        rcases Option.some_injective _ h with rfl
        exact List.mem_of_find?_eq_some hf
      | none =>
        rw [hf] at h
        exact ih h
    · rw [if_neg ht] at h
      exact ih h

/-- The equivalence scan succeeds exactly when some entry has the
normalized target among its aliases and some candidate normalizes to
that entry's canonical name or to one of its aliases. -/
theorem equivScan_isSome_iff (t : List Char) (cands : List (List Char)) :
    ∀ E : EquivTable, (equivScan t cands E).isSome ↔
      ∃ p ∈ E, t ∈ p.2 ∧ ∃ c ∈ cands,
        (matcherNormalize c = p.1 ∨ matcherNormalize c ∈ p.2) := by
  intro E
  induction E with
  | nil => simp [equivScan]
  | cons p es ih =>
    obtain ⟨can, al⟩ := p
    rw [equivScan_cons]
    by_cases ht : t ∈ al
    · rw [if_pos ht]
      cases hf : cands.find? (fun c =>
          matcherNormalize c == can || al.contains (matcherNormalize c)) with
      | some c =>
        simp only [Option.isSome_some, true_iff]
        refine ⟨(can, al), List.mem_cons_self .., ht, c,
          List.mem_of_find?_eq_some hf, ?_⟩
        have hp := List.find?_some hf
        simpa using hp
      | none =>
        rw [show (match (none : Option (List Char)) with
          | some c => some c
          | none => equivScan t cands es) = equivScan t cands es from rfl]
        rw [ih]
        constructor
        · rintro ⟨p, hp, h1, h2⟩
          exact ⟨p, List.mem_cons_of_mem _ hp, h1, h2⟩
        · rintro ⟨p, hp, h1, c, hc, h2⟩
          rcases List.mem_cons.mp hp with heq | hp2
          · subst heq
            have hnone := List.find?_eq_none.mp hf c hc
            simp only [Bool.or_eq_true, beq_iff_eq, not_or] at hnone
            rcases h2 with h2 | h2
            · exact absurd h2 hnone.1
            · exact absurd h2 (by simpa using hnone.2)
          · exact ⟨p, hp2, h1, c, hc, h2⟩
    · rw [if_neg ht]
      rw [ih]
      constructor
      · rintro ⟨p, hp, h1, h2⟩
        exact ⟨p, List.mem_cons_of_mem _ hp, h1, h2⟩
      · rintro ⟨p, hp, h1, h2⟩
        rcases List.mem_cons.mp hp with heq | hp2
        · subst heq
          exact absurd h1 ht
        · exact ⟨p, hp2, h1, h2⟩

theorem equivScan_nil_cands (t : List Char) :
    ∀ E : EquivTable, equivScan t [] E = none := by
  intro E
  induction E with
  | nil => rfl
  | cons p es ih =>
    obtain ⟨can, al⟩ := p
    rw [equivScan_cons]
    by_cases ht : t ∈ al
    · rw [if_pos ht, List.find?_nil]
      exact ih
    · rw [if_neg ht]
      exact ih

/-! ### find_match: structure of the result -/

theorem findMatch_eq_branches (E : EquivTable) (t : List Char)
    (cs : List (List Char)) :
    findMatch E t cs =
      match cs.find? (fun c => matcherNormalize c == matcherNormalize t) with
      | some c => some (c, 100)
      | none =>
        match equivScan (matcherNormalize t) cs E with
        | some c => some (c, 95)
        | none =>
          match extractOne (matcherNormalize t) (cs.map matcherNormalize) with
          | none => none
          | some (bn, sc) =>
            if 85 ≤ sc then
              (cs.find? (fun c => matcherNormalize c == bn)).map fun c => (c, sc)
            else none := rfl

/-- Any result of `find_match` has confidence at least 85 (100 exact, 95
equivalence, or a fuzzy score that passed the threshold). -/
theorem findMatch_ge_85 {E : EquivTable} {t c : List Char}
    {cs : List (List Char)} {q : ℚ}
    (h : findMatch E t cs = some (c, q)) : 85 ≤ q := by
  rw [findMatch_eq_branches] at h
  cases h1 : cs.find? (fun c => matcherNormalize c == matcherNormalize t) with
  | some c0 =>
    rw [h1] at h
    rcases Option.some_injective _ h with h2
    have : q = 100 := (congrArg Prod.snd h2).symm
    rw [this]; norm_num
  | none =>
    rw [h1] at h
    cases h2 : equivScan (matcherNormalize t) cs E with
    | some c0 =>
      rw [h2] at h
      rcases Option.some_injective _ h with h3
      have : q = 95 := (congrArg Prod.snd h3).symm
      rw [this]; norm_num
    | none =>
      rw [h2] at h
      cases h3 : extractOne (matcherNormalize t) (cs.map matcherNormalize) with
      | none => rw [h3] at h; cases h
      | some pr =>
        obtain ⟨bn, sc⟩ := pr
        rw [h3] at h
        have hfz : (if 85 ≤ sc then
            (cs.find? (fun c => matcherNormalize c == bn)).map (fun c => (c, sc))
          else none) = some (c, q) := h
        by_cases h4 : 85 ≤ sc
        · rw [if_pos h4] at hfz
          cases h5 : cs.find? (fun c => matcherNormalize c == bn) with
          | none => rw [h5] at hfz; cases hfz
          | some c0 =>
            rw [h5] at hfz
            rcases Option.some_injective _ hfz with h6
            have : q = sc := (congrArg Prod.snd h6).symm
            rw [this]; exact h4
        · rw [if_neg h4] at hfz; cases hfz

/-- Any result of `find_match` has confidence at most 100. -/
theorem findMatch_le_100 {E : EquivTable} {t c : List Char}
    {cs : List (List Char)} {q : ℚ}
    (h : findMatch E t cs = some (c, q)) : q ≤ 100 := by
  rw [findMatch_eq_branches] at h
  cases h1 : cs.find? (fun c => matcherNormalize c == matcherNormalize t) with
  | some c0 =>
    rw [h1] at h
    rcases Option.some_injective _ h with h2
    have : q = 100 := (congrArg Prod.snd h2).symm
    rw [this]
  | none =>
    rw [h1] at h
    cases h2 : equivScan (matcherNormalize t) cs E with
    | some c0 =>
      rw [h2] at h
      rcases Option.some_injective _ h with h3
      have : q = 95 := (congrArg Prod.snd h3).symm
      rw [this]; norm_num
    | none =>
      rw [h2] at h
      cases h3 : extractOne (matcherNormalize t) (cs.map matcherNormalize) with
      | none => rw [h3] at h; cases h
      | some pr =>
        obtain ⟨bn, sc⟩ := pr
        rw [h3] at h
        have hfz : (if 85 ≤ sc then
            (cs.find? (fun c => matcherNormalize c == bn)).map (fun c => (c, sc))
          else none) = some (c, q) := h
        by_cases h4 : 85 ≤ sc
        · rw [if_pos h4] at hfz
          cases h5 : cs.find? (fun c => matcherNormalize c == bn) with
          | none => rw [h5] at hfz; cases hfz
          | some c0 =>
            rw [h5] at hfz
            rcases Option.some_injective _ hfz with h6
            have hq : q = sc := (congrArg Prod.snd h6).symm
            have := (extractOne_spec h3).2
            rw [hq, this]
            exact tokenSortRatio_le_100 _ _
        · rw [if_neg h4] at hfz; cases hfz

/-- Any matched name returned by `find_match` is one of the given
candidates. -/
theorem findMatch_mem {E : EquivTable} {t c : List Char}
    {cs : List (List Char)} {q : ℚ}
    (h : findMatch E t cs = some (c, q)) : c ∈ cs := by
  rw [findMatch_eq_branches] at h
  cases h1 : cs.find? (fun c => matcherNormalize c == matcherNormalize t) with
  | some c0 =>
    rw [h1] at h
    rcases Option.some_injective _ h with h2
    have : c = c0 := (congrArg Prod.fst h2).symm
    rw [this]
    exact List.mem_of_find?_eq_some h1
  | none =>
    rw [h1] at h
    cases h2 : equivScan (matcherNormalize t) cs E with
    | some c0 =>
      rw [h2] at h
      rcases Option.some_injective _ h with h3
      have : c = c0 := (congrArg Prod.fst h3).symm
      rw [this]
      exact equivScan_mem h2
    | none =>
      rw [h2] at h
      cases h3 : extractOne (matcherNormalize t) (cs.map matcherNormalize) with
      | none => rw [h3] at h; cases h
      | some pr =>
        obtain ⟨bn, sc⟩ := pr
        rw [h3] at h
        have hfz : (if 85 ≤ sc then
            (cs.find? (fun c => matcherNormalize c == bn)).map (fun c => (c, sc))
          else none) = some (c, q) := h
        by_cases h4 : 85 ≤ sc
        · rw [if_pos h4] at hfz
          cases h5 : cs.find? (fun c => matcherNormalize c == bn) with
          | none => rw [h5] at hfz; cases hfz
          | some c0 =>
            rw [h5] at hfz
            rcases Option.some_injective _ hfz with h6
            have : c = c0 := (congrArg Prod.fst h6).symm
            rw [this]
            exact List.mem_of_find?_eq_some h5
        · rw [if_neg h4] at hfz; cases hfz

/-- C10 (confirmed): whenever `find_match` returns a result, the matched
name is one of the given candidates and the confidence lies in
`[85, 100]`; for an empty candidate list it returns no match. -/
theorem findMatch_result_sound (E : EquivTable) (t : List Char)
    (cs : List (List Char)) :
    (∀ c q, findMatch E t cs = some (c, q) → c ∈ cs ∧ 85 ≤ q ∧ q ≤ 100) ∧
      findMatch E t [] = none := by
  constructor
  · intro c q h
    exact ⟨findMatch_mem h, findMatch_ge_85 h, findMatch_le_100 h⟩
  · rw [findMatch_eq_branches, List.find?_nil, equivScan_nil_cands]
    rfl

/-- Witness for C10 at the exact-match instance
`find_match([], "ab", ["ab"]) = ("ab", 100)`. -/
theorem findMatch_result_sound_witness :
    "ab".data ∈ ["ab".data] ∧ (85 : ℚ) ≤ 100 ∧ (100 : ℚ) ≤ 100 :=
  (findMatch_result_sound [] "ab".data ["ab".data]).1 "ab".data 100 (by
    rw [findMatch_eq_branches]
    rw [show List.find? (fun c => matcherNormalize c == matcherNormalize "ab".data)
      ["ab".data] = some "ab".data from by decide])

/-! ### The tie-break order of find_match (C2) -/

/-- C2 (corrected): the tie-break order of `find_match` — an exact match
after normalization yields confidence exactly 100; otherwise a
known-equivalence match — the normalized target is a **listed alias** of
some entry (the code never compares it with the canonical name, which is
the correction) and some candidate normalizes to that entry's canonical
name or to one of its aliases — yields exactly 95; any returned
confidence is 100, 95, or a fuzzy `token_sort_ratio` score at least the
threshold 85; and when no rule applies (no exact match, no equivalence
entry as above, every fuzzy score below 85) it returns no match rather
than an error. -/
theorem findMatch_tiebreak :
    (∀ (E : EquivTable) (t : List Char) (cs : List (List Char)),
      (∃ c ∈ cs, matcherNormalize c = matcherNormalize t) →
        ∃ c ∈ cs, findMatch E t cs = some (c, 100)) ∧
    (∀ (E : EquivTable) (t : List Char) (cs : List (List Char)),
      (∀ c ∈ cs, matcherNormalize c ≠ matcherNormalize t) →
      (∃ p ∈ E, matcherNormalize t ∈ p.2 ∧ ∃ c ∈ cs,
        (matcherNormalize c = p.1 ∨ matcherNormalize c ∈ p.2)) →
        ∃ c ∈ cs, findMatch E t cs = some (c, 95)) ∧
    (∀ (E : EquivTable) (t : List Char) (cs : List (List Char))
        (c : List Char) (q : ℚ), findMatch E t cs = some (c, q) →
      q = 100 ∨ q = 95 ∨
        (85 ≤ q ∧ q = tokenSortRatio (matcherNormalize t) (matcherNormalize c))) ∧
    (∀ (E : EquivTable) (t : List Char) (cs : List (List Char)),
      (∀ c ∈ cs, matcherNormalize c ≠ matcherNormalize t) →
      (∀ p ∈ E, matcherNormalize t ∈ p.2 →
        ∀ c ∈ cs, matcherNormalize c ≠ p.1 ∧ matcherNormalize c ∉ p.2) →
      (∀ c ∈ cs, tokenSortRatio (matcherNormalize t) (matcherNormalize c) < 85) →
        findMatch E t cs = none) := by
  refine ⟨?_, ?_, ?_, ?_⟩
  · rintro E t cs ⟨c0, hc0, he⟩
    have hs : (cs.find? fun c => matcherNormalize c == matcherNormalize t).isSome := by
      rw [List.find?_isSome]
      exact ⟨c0, hc0, by simpa using he⟩
    obtain ⟨c1, hc1⟩ := Option.isSome_iff_exists.mp hs
    refine ⟨c1, List.mem_of_find?_eq_some hc1, ?_⟩
    rw [findMatch_eq_branches, hc1]
  · intro E t cs hex hequiv
    have hf : cs.find? (fun c => matcherNormalize c == matcherNormalize t) = none :=
      List.find?_eq_none.mpr (fun c hc => by simpa using hex c hc)
    have hs : (equivScan (matcherNormalize t) cs E).isSome := by
      rw [equivScan_isSome_iff]
      exact hequiv
    obtain ⟨c1, hc1⟩ := Option.isSome_iff_exists.mp hs
    refine ⟨c1, equivScan_mem hc1, ?_⟩
    rw [findMatch_eq_branches, hf, hc1]
  · intro E t cs c q h
    rw [findMatch_eq_branches] at h
    cases h1 : cs.find? (fun c => matcherNormalize c == matcherNormalize t) with
    | some c0 =>
      rw [h1] at h
      rcases Option.some_injective _ h with h2
      exact Or.inl ((congrArg Prod.snd h2).symm)
    | none =>
      rw [h1] at h
      cases h2 : equivScan (matcherNormalize t) cs E with
      | some c0 =>
        rw [h2] at h
        rcases Option.some_injective _ h with h3
        exact Or.inr (Or.inl ((congrArg Prod.snd h3).symm))
      | none =>
        rw [h2] at h
        cases h3 : extractOne (matcherNormalize t) (cs.map matcherNormalize) with
        | none => rw [h3] at h; cases h
        | some pr =>
          obtain ⟨bn, sc⟩ := pr
          rw [h3] at h
          have hfz : (if 85 ≤ sc then
              (cs.find? (fun c => matcherNormalize c == bn)).map (fun c => (c, sc))
            else none) = some (c, q) := h
          by_cases h4 : 85 ≤ sc
          · rw [if_pos h4] at hfz
            cases h5 : cs.find? (fun c => matcherNormalize c == bn) with
            | none => rw [h5] at hfz; cases hfz
            | some c0 =>
              rw [h5] at hfz
              rcases Option.some_injective _ hfz with h6
              have hc : c = c0 := (congrArg Prod.fst h6).symm
              have hq : q = sc := (congrArg Prod.snd h6).symm
              refine Or.inr (Or.inr ⟨hq ▸ h4, ?_⟩)
              have hbn := extractOne_spec h3
              have h7 : matcherNormalize c0 = bn := by
                simpa using List.find?_some h5
              rw [hq, hbn.2, hc, h7]
          · rw [if_neg h4] at hfz; cases hfz
  · intro E t cs hex hequiv hfuz
    have hf : cs.find? (fun c => matcherNormalize c == matcherNormalize t) = none :=
      List.find?_eq_none.mpr (fun c hc => by simpa using hex c hc)
    have he : equivScan (matcherNormalize t) cs E = none := by
      rw [← Option.not_isSome_iff_eq_none]
      rw [equivScan_isSome_iff]
      rintro ⟨p, hp, h1, c, hc, h2⟩
      rcases hequiv p hp h1 c hc with ⟨hne, hnm⟩
      rcases h2 with h2 | h2
      · exact hne h2
      · exact hnm h2
    rw [findMatch_eq_branches, hf, he]
    cases h3 : extractOne (matcherNormalize t) (cs.map matcherNormalize) with
    | none => rfl
    | some pr =>
      obtain ⟨bn, sc⟩ := pr
      show (if 85 ≤ sc then
          (cs.find? (fun c => matcherNormalize c == bn)).map (fun c => (c, sc))
        else none) = none
      have hb := extractOne_spec h3
      rcases List.mem_map.mp hb.1 with ⟨c0, hc0, hbn⟩
      have hlt : sc < 85 := by
        rw [hb.2, ← hbn]
        exact hfuz c0 hc0
      rw [if_neg (not_le.mpr hlt)]

/-- Witness for C2, one concrete instance per tie-break rule: an exact
match at confidence 100, an equivalence match at 95, the shape of a
returned confidence, and a below-threshold query returning no match. -/
theorem findMatch_tiebreak_witness :
    (∃ c ∈ ["ab".data], findMatch [] "ab".data ["ab".data] = some (c, 100)) ∧
    (∃ c ∈ ["t".data],
      findMatch [("t".data, ["abc".data])] "abc".data ["t".data] = some (c, 95)) ∧
    ((100 : ℚ) = 100 ∨ (100 : ℚ) = 95 ∨ ((85 : ℚ) ≤ 100 ∧ (100 : ℚ) =
      tokenSortRatio (matcherNormalize "ab".data) (matcherNormalize "ab".data))) ∧
    findMatch [] "abc".data ["xyz".data] = none := by
  have h100 : findMatch [] "ab".data ["ab".data] = some ("ab".data, 100) := by
    rw [findMatch_eq_branches]
    rw [show List.find? (fun c => matcherNormalize c == matcherNormalize "ab".data)
      ["ab".data] = some "ab".data from by decide]
  refine ⟨?_, ?_, ?_, ?_⟩
  · exact findMatch_tiebreak.1 [] "ab".data ["ab".data]
      ⟨"ab".data, by decide, by decide⟩
  · exact findMatch_tiebreak.2.1 [("t".data, ["abc".data])] "abc".data ["t".data]
      (by decide)
      ⟨("t".data, ["abc".data]), by decide, by decide,
        "t".data, by decide, by decide⟩
  · exact findMatch_tiebreak.2.2.1 [] "ab".data ["ab".data] "ab".data 100 h100
  · refine findMatch_tiebreak.2.2.2 [] "abc".data ["xyz".data]
      (by decide) (by simp) ?_
    intro c hc
    rw [List.mem_singleton] at hc
    subst hc
    have hts : tokenSortRatio (matcherNormalize "abc".data)
        (matcherNormalize "xyz".data) = 0 := by
      unfold tokenSortRatio indelSim
      rw [show lcs (tokenSortPrep (matcherNormalize "abc".data))
        (tokenSortPrep (matcherNormalize "xyz".data)) = 0 from by decide]
      rw [show (tokenSortPrep (matcherNormalize "abc".data)).length = 3 from by decide]
      rw [show (tokenSortPrep (matcherNormalize "xyz".data)).length = 3 from by decide]
      norm_num
    rw [hts]
    norm_num

/-- C2 counterexample: with the equivalence table `{abc: [xyz]}`, the
target `abc` normalizes to the **canonical name** of the entry and the
candidate `xyz` normalizes to its listed alias, so the claimed rule
(`normalized target is a listed alias or equals the canonical name`)
requires confidence 95 — but `find_match` checks only alias membership,
the fuzzy score is below 85, and it returns no match. -/
theorem findMatch_canonical_target_misses :
    matcherNormalize "abc".data = "abc".data ∧
    matcherNormalize "xyz".data = "xyz".data ∧
    findMatch [("abc".data, ["xyz".data])] "abc".data ["xyz".data] = none := by
  refine ⟨by decide, by decide, ?_⟩
  rw [findMatch_eq_branches]
  rw [show List.find? (fun c => matcherNormalize c == matcherNormalize "abc".data)
    ["xyz".data] = none from by decide]
  rw [show equivScan (matcherNormalize "abc".data) ["xyz".data]
    [("abc".data, ["xyz".data])] = none from by decide]
  rw [show List.map matcherNormalize ["xyz".data] = ["xyz".data] from by decide]
  rw [show extractOne (matcherNormalize "abc".data) ["xyz".data] =
    some ("xyz".data, tokenSortRatio (matcherNormalize "abc".data) "xyz".data)
    from rfl]
  show (if 85 ≤ tokenSortRatio (matcherNormalize "abc".data) "xyz".data then
      (["xyz".data].find? (fun c =>
        matcherNormalize c == "xyz".data)).map
          (fun c => (c, tokenSortRatio (matcherNormalize "abc".data) "xyz".data))
    else none) = none
  have hts : tokenSortRatio (matcherNormalize "abc".data) "xyz".data = 0 := by
    unfold tokenSortRatio indelSim
    rw [show lcs (tokenSortPrep (matcherNormalize "abc".data))
      (tokenSortPrep "xyz".data) = 0 from by decide]
    rw [show (tokenSortPrep (matcherNormalize "abc".data)).length = 3 from by decide]
    rw [show (tokenSortPrep "xyz".data).length = 3 from by decide]
    norm_num
  rw [hts]
  norm_num

/-! ### Supply reconciliation (C1) -/

theorem findSupplyMatch_ge_85 {E : EquivTable} {internal : Supply}
    {cands : List Supply} {s : Supply} {q : ℚ}
    (h : findSupplyMatch E internal cands = some (s, q)) : 85 ≤ q := by
  unfold findSupplyMatch at h
  by_cases hc : cands = []
  · rw [if_pos hc] at h; cases h
  · rw [if_neg hc] at h
    cases hm : findMatch E internal.name (cands.map (·.name)) with
    | none => rw [hm] at h; cases h
    | some pr =>
      obtain ⟨mn, conf⟩ := pr
      rw [hm] at h
      have h2 : (cands.find? fun s => s.name == mn).map (fun s => (s, conf)) =
          some (s, q) := h
      cases h5 : cands.find? fun s => s.name == mn with
      | none => rw [h5] at h2; cases h2
      | some s0 =>
        rw [h5] at h2
        rcases Option.some_injective _ h2 with h6
        have hq : q = conf := (congrArg Prod.snd h6).symm
        rw [hq]
        exact findMatch_ge_85 hm

theorem verifySingleSupply_nameMatch (E : EquivTable) (i : Supply)
    (hosp desc : List Supply) :
    (verifySingleSupply E i hosp desc).nameMatch =
      (((findSupplyMatch E i hosp).toList.map fun m => decide (85 ≤ m.2)) ++
        ((findSupplyMatch E i desc).toList.map fun m => decide (85 ≤ m.2))).any id :=
  rfl

theorem verifySingleSupply_quantityMatch (E : EquivTable) (i : Supply)
    (hosp desc : List Supply) :
    (verifySingleSupply E i hosp desc).quantityMatch =
      (((findSupplyMatch E i hosp).toList.map fun m => m.1.quantity == i.quantity) ++
        ((findSupplyMatch E i desc).toList.map fun m => m.1.quantity == i.quantity)).any id :=
  rfl

/-- C1 (confirmed): a baseline item counts as fully reconciled
(`name_match ∧ quantity_match`, which is what the match count counts)
exactly when one of the two found matches — hospital or description —
has confidence at least 85 **and that same matched item's** quantity
equals the baseline quantity; and the verifier's matched-supplies count
counts exactly the baseline items satisfying this.  (The code evaluates
`any(name_matches)` and `any(quantity_matches)` over separate lists, but
every match `find_match` returns carries confidence ≥ 85, so the
decoupled conjunction coincides with the same-item criterion.) -/
theorem supplyItem_fully_reconciled :
    (∀ (E : EquivTable) (internal : Supply) (hosp desc : List Supply),
      ((verifySingleSupply E internal hosp desc).nameMatch &&
        (verifySingleSupply E internal hosp desc).quantityMatch) = true ↔
        ∃ m : Supply × ℚ,
          (findSupplyMatch E internal hosp = some m ∨
            findSupplyMatch E internal desc = some m) ∧
          85 ≤ m.2 ∧ m.1.quantity = internal.quantity) ∧
    (∀ (E : EquivTable) (int hos des : List Supply),
      int ≠ [] → hos ≠ [] → des ≠ [] →
      (verifySupplies E [(.internal, int), (.hospital, hos),
        (.description, des)]).matchedSupplies =
        some (int.countP fun i => (verifySingleSupply E i hos des).quantityMatch &&
          (verifySingleSupply E i hos des).nameMatch)) := by
  constructor
  · intro E internal hosp desc
    rw [verifySingleSupply_nameMatch, verifySingleSupply_quantityMatch]
    cases hm : findSupplyMatch E internal hosp with
    | none =>
      cases hd : findSupplyMatch E internal desc with
      | none => simp
      | some md =>
        obtain ⟨s2, q2⟩ := md
        have h2 := findSupplyMatch_ge_85 hd
        simp only [Option.toList_some, Option.toList_none, List.map_cons,
          List.map_nil, List.nil_append, List.append_nil, List.cons_append,
          List.any_cons, List.any_nil, id_eq, Bool.or_false, Bool.and_eq_true,
          Bool.or_eq_true, decide_eq_true_eq, beq_iff_eq]
        constructor
        · rintro ⟨-, h⟩
          exact ⟨(s2, q2), Or.inr rfl, h2, h⟩
        · rintro ⟨m, hmor, hge, heq⟩
          rcases hmor with h | h
          · cases h
          · rcases Option.some_injective _ h with rfl
            exact ⟨h2, heq⟩
    | some mh =>
      obtain ⟨s1, q1⟩ := mh
      have h1 := findSupplyMatch_ge_85 hm
      cases hd : findSupplyMatch E internal desc with
      | none =>
        simp only [Option.toList_some, Option.toList_none, List.map_cons,
          List.map_nil, List.nil_append, List.append_nil, List.cons_append,
          List.any_cons, List.any_nil, id_eq, Bool.or_false, Bool.and_eq_true,
          Bool.or_eq_true, decide_eq_true_eq, beq_iff_eq]
        constructor
        · rintro ⟨-, h⟩
          exact ⟨(s1, q1), Or.inl rfl, h1, h⟩
        · rintro ⟨m, hmor, hge, heq⟩
          rcases hmor with h | h
          · rcases Option.some_injective _ h with rfl
            exact ⟨h1, heq⟩
          · cases h
      | some md =>
        obtain ⟨s2, q2⟩ := md
        have h2 := findSupplyMatch_ge_85 hd
        simp only [Option.toList_some, Option.toList_none, List.map_cons,
          List.map_nil, List.nil_append, List.append_nil, List.cons_append,
          List.any_cons, List.any_nil, id_eq, Bool.or_false, Bool.and_eq_true,
          Bool.or_eq_true, decide_eq_true_eq, beq_iff_eq]
        constructor
        · rintro ⟨-, h | h⟩
          · exact ⟨(s1, q1), Or.inl rfl, h1, h⟩
          · exact ⟨(s2, q2), Or.inr rfl, h2, h⟩
        · rintro ⟨m, hmor, hge, heq⟩
          rcases hmor with h | h
          · rcases Option.some_injective _ h with rfl
            exact ⟨Or.inl h1, Or.inl heq⟩
          · rcases Option.some_injective _ h with rfl
            exact ⟨Or.inr h2, Or.inr heq⟩
  · intro E int hos des h1 h2 h3
    unfold verifySupplies
    rw [show dictOf [(.internal, int), (.hospital, hos), (.description, des)] =
      [(.internal, int), (.hospital, hos), (.description, des)] from rfl]
    rw [if_neg (by simp [h1, h2, h3])]
    show some ((int.map fun i => verifySingleSupply E i hos des).countP
      fun r => r.quantityMatch && r.nameMatch) = _
    rw [List.countP_map]
    rfl

/-- Witness for C1 with nonempty supply lists for the three documents. -/
theorem supplyItem_fully_reconciled_witness :
    (verifySupplies [] [(.internal, [⟨"a".data, 1, [], [], false⟩]),
      (.hospital, [⟨"a".data, 1, [], [], false⟩]),
      (.description, [⟨"b".data, 2, [], [], false⟩])]).matchedSupplies =
      some (List.countP (fun i => (verifySingleSupply [] i
          [⟨"a".data, 1, [], [], false⟩] [⟨"b".data, 2, [], [], false⟩]).quantityMatch &&
        (verifySingleSupply [] i [⟨"a".data, 1, [], [], false⟩]
          [⟨"b".data, 2, [], [], false⟩]).nameMatch)
        [⟨"a".data, 1, [], [], false⟩]) :=
  supplyItem_fully_reconciled.2 [] _ _ _
    (List.cons_ne_nil _ _) (List.cons_ne_nil _ _) (List.cons_ne_nil _ _)

/-! ### The name-field comparison (C4) -/

theorem indelSim_eval (a b : List Char) (k m n : Nat)
    (hk : lcs a b = k) (hm : a.length = m) (hn : b.length = n)
    (h0 : m + n ≠ 0) :
    indelSim a b = 200 * (k : ℚ) / ((m : ℚ) + (n : ℚ)) := by
  unfold indelSim
  rw [hk, hm, hn, if_neg h0]

/-- C4 counterexample: with values whose normalized forms are
`AAAAAAAAAA`, `AAAAAAAAAABB`, `AAAAAAAAAACC`, the first distinct value is
within 85 of both others (ratio 1000/11 ≈ 90.9), so the field matches —
although the pair (`AAAAAAAAAABB`, `AAAAAAAAAACC`) of distinct values has
ratio 250/3 ≈ 83.3 < 85, which the claim says must make the field
mismatch.  The code compares only the first distinct value against the
others, not every pair. -/
theorem verifyNameField_not_all_pairs :
    (verifyNameField ["AAAAAAAAAA".data, "AAAAAAAAAABB".data,
      "AAAAAAAAAACC".data]).matched = true ∧
    personNormalize "AAAAAAAAAABB".data ≠ personNormalize "AAAAAAAAAACC".data ∧
    indelSim (personNormalize "AAAAAAAAAABB".data)
      (personNormalize "AAAAAAAAAACC".data) < 85 := by
  have e1 : indelSim "AAAAAAAAAA".data "AAAAAAAAAA".data = 100 := by
    rw [indelSim_eval _ _ 10 10 10 (by decide) (by decide) (by decide)
      (by decide)]
    norm_num
  have e2 : indelSim "AAAAAAAAAA".data "AAAAAAAAAABB".data = 1000 / 11 := by
    rw [indelSim_eval _ _ 10 10 12 (by decide) (by decide) (by decide)
      (by decide)]
    norm_num
  have e3 : indelSim "AAAAAAAAAA".data "AAAAAAAAAACC".data = 1000 / 11 := by
    rw [indelSim_eval _ _ 10 10 12 (by decide) (by decide) (by decide)
      (by decide)]
    norm_num
  refine ⟨?_, by decide, ?_⟩
  · simp only [verifyNameField]
    rw [show (["AAAAAAAAAA".data, "AAAAAAAAAABB".data,
        "AAAAAAAAAACC".data].map fun v =>
        if v = [] then [] else personNormalize v).eraseDups.filter (· ≠ []) =
      ["AAAAAAAAAA".data, "AAAAAAAAAABB".data, "AAAAAAAAAACC".data]
      from by decide]
    rw [if_neg (by decide :
      ¬ ["AAAAAAAAAA".data, "AAAAAAAAAABB".data, "AAAAAAAAAACC".data].length ≤ 1)]
    rw [List.headD_cons]
    have hany : (["AAAAAAAAAA".data, "AAAAAAAAAABB".data,
        "AAAAAAAAAACC".data].any fun v =>
        decide (indelSim "AAAAAAAAAA".data v < 85)) = false := by
      simp only [List.any_cons, List.any_nil, Bool.or_false]
      rw [e1, e2, e3]
      rw [decide_eq_false (by norm_num : ¬ ((100 : ℚ) < 85)),
        decide_eq_false (by norm_num : ¬ ((1000 / 11 : ℚ) < 85))]
      simp
    rw [if_neg (by simp [hany])]
  · rw [show personNormalize "AAAAAAAAAABB".data = "AAAAAAAAAABB".data
      from by decide]
    rw [show personNormalize "AAAAAAAAAACC".data = "AAAAAAAAAACC".data
      from by decide]
    rw [indelSim_eval _ _ 10 12 12 (by decide) (by decide) (by decide)
      (by decide)]
    norm_num

/-- C4 (corrected): for the patient-name and doctor fields with more than
one distinct nonempty normalized value, the code compares the **first**
distinct value (in the modelled set order) against every distinct value
with the plain similarity ratio; the field matches exactly when all of
those comparisons are at or above 85.  Pairs not involving the first
distinct value are never compared (see the counterexample), so "any pair
below the threshold" does not imply a mismatch. -/
theorem verifyNameField_base_comparisons (values : List (List Char)) :
    (verifyNameField values).matched = true ↔
      (nameFieldUniq values).length ≤ 1 ∨
        ∀ v ∈ nameFieldUniq values,
          85 ≤ indelSim ((nameFieldUniq values).headD []) v := by
  simp only [verifyNameField]
  rw [show ((values.map fun v =>
      if v = [] then [] else personNormalize v).eraseDups).filter (· ≠ []) =
    nameFieldUniq values from rfl]
  by_cases hlen : (nameFieldUniq values).length ≤ 1
  · rw [if_pos hlen]
    simpa using Or.inl hlen
  · rw [if_neg hlen]
    by_cases hany : ((nameFieldUniq values).any fun v =>
        decide (indelSim ((nameFieldUniq values).headD []) v < 85)) = true
    · rw [if_pos hany]
      constructor
      · intro h
        exact absurd h (by decide)
      · rintro (h | h)
        · exact absurd h hlen
        · rw [List.any_eq_true] at hany
          obtain ⟨v, hv, hdec⟩ := hany
          rw [decide_eq_true_eq] at hdec
          exact absurd (h v hv) (not_le.mpr hdec)
    · rw [if_neg hany]
      constructor
      · intro _
        refine Or.inr fun v hv => ?_
        by_contra hlt
        exact hany (List.any_eq_true.mpr
          ⟨v, hv, decide_eq_true (not_le.mp hlt)⟩)
      · intro _
        rfl

/-! ### Agreement of the two normalizers on safe strings (C3) -/

theorem map_eq_self_of {f : Char → Char} {l : List Char}
    (h : ∀ a ∈ l, f a = a) : l.map f = l := by
  rw [List.map_congr_left h]
  exact List.map_id' l

theorem getLast?_append_right (a : List Char) {b : List Char} (h : b ≠ []) :
    (a ++ b).getLast? = b.getLast? := by
  rw [List.getLast?_append]
  cases hb : b.getLast? with
  | none => exact absurd (by simpa using hb) h
  | some x => rfl

theorem getLast?_cons_ne_nil {c : Char} {l : List Char} (h : l ≠ []) :
    (c :: l).getLast? = l.getLast? :=
  getLast?_append_right [c] h

theorem suffix_getLast? {r u : List Char} (hs : r <:+ u) (h : r ≠ []) :
    r.getLast? = u.getLast? := by
  obtain ⟨pre, rfl⟩ := hs
  exact (getLast?_append_right pre h).symm

theorem dropWhile_head_not {p : Char → Bool} {l : List Char} {c : Char}
    {r : List Char} (h : l.dropWhile p = c :: r) : p c = false := by
  have hd := List.head?_dropWhile_not p l
  rw [h] at hd
  simpa using hd

theorem safeChar_ne {c d : Char} (h : safeChar c = true)
    (hd : safeChar d = false) : c ≠ d := fun he => by
  rw [he, hd] at h
  cases h

theorem safeChar_nfkd {c : Char} (h : safeChar c = true) : nfkdStrip c = [c] := by
  unfold nfkdStrip
  rw [if_neg (safeChar_ne h (by decide : safeChar 'á' = false)),
    if_neg (safeChar_ne h (by decide : safeChar 'é' = false)),
    if_neg (safeChar_ne h (by decide : safeChar 'í' = false)),
    if_neg (safeChar_ne h (by decide : safeChar 'ó' = false)),
    if_neg (safeChar_ne h (by decide : safeChar 'ú' = false)),
    if_neg (safeChar_ne h (by decide : safeChar 'ñ' = false)),
    if_neg (safeChar_ne h (by decide : safeChar 'ü' = false)),
    if_neg (safeChar_ne h (by decide : safeChar 'Á' = false)),
    if_neg (safeChar_ne h (by decide : safeChar 'É' = false)),
    if_neg (safeChar_ne h (by decide : safeChar 'Í' = false)),
    if_neg (safeChar_ne h (by decide : safeChar 'Ó' = false)),
    if_neg (safeChar_ne h (by decide : safeChar 'Ú' = false)),
    if_neg (safeChar_ne h (by decide : safeChar 'Ñ' = false)),
    if_neg (safeChar_ne h (by decide : safeChar 'Ü' = false))]

theorem safeLow_pyLower {c : Char} (h : safeChar c = true) :
    safeLow (pyLower c) = true := by
  simp only [safeChar, Bool.or_eq_true, Bool.and_eq_true,
    decide_eq_true_eq] at h
  unfold pyLower
  rcases h with ((((((h | h) | h) | h) | h) | h) | h)
  · have ha : 97 ≤ c.toNat := h.1
    have hb : c.toNat ≤ 122 := h.2
    rw [if_neg (by
      rw [Bool.and_eq_true, decide_eq_true_eq, decide_eq_true_eq]
      rintro ⟨h3, h4⟩
      have hd : c.toNat ≤ 90 := h4
      omega)]
    simp only [safeLow, Bool.or_eq_true, Bool.and_eq_true, decide_eq_true_eq]
    exact Or.inl (Or.inl (Or.inl (Or.inl (Or.inl h))))
  · have ha : 65 ≤ c.toNat := h.1
    have hb : c.toNat ≤ 90 := h.2
    rw [if_pos (by
      rw [Bool.and_eq_true, decide_eq_true_eq, decide_eq_true_eq]
      exact h)]
    have hval : (Char.ofNat (c.toNat + 32)).toNat = c.toNat + 32 := by
      unfold Char.ofNat
      rw [dif_pos (Or.inl (by omega : c.toNat + 32 < 55296))]
      rfl
    simp only [safeLow, Bool.or_eq_true, Bool.and_eq_true, decide_eq_true_eq]
    refine Or.inl (Or.inl (Or.inl (Or.inl (Or.inl ⟨?_, ?_⟩))))
    · show 97 ≤ (Char.ofNat (c.toNat + 32)).toNat
      omega
    · show (Char.ofNat (c.toNat + 32)).toNat ≤ 122
      omega
  · have hd := h
    simp only [isDigitC, Bool.and_eq_true, decide_eq_true_eq] at hd
    have ha : 48 ≤ c.toNat := hd.1
    have hb : c.toNat ≤ 57 := hd.2
    rw [if_neg (by
      rw [Bool.and_eq_true, decide_eq_true_eq, decide_eq_true_eq]
      rintro ⟨h3, h4⟩
      have hc : 65 ≤ c.toNat := h3
      omega)]
    simp only [safeLow, Bool.or_eq_true]
    exact Or.inl (Or.inl (Or.inl (Or.inl (Or.inr h))))
  all_goals subst h
  all_goals rw [if_neg (by decide)]
  all_goals decide

theorem mem_pyStrip {c : Char} {l : List Char} (h : c ∈ pyStrip l) : c ∈ l := by
  unfold pyStrip at h
  rw [List.mem_reverse] at h
  have h1 := ((List.dropWhile_suffix _).sublist).subset h
  rw [List.mem_reverse] at h1
  exact ((List.dropWhile_suffix _).sublist).subset h1

theorem preNorm_safeLow {s : List Char} (hs : ∀ c ∈ s, safeChar c = true) :
    ∀ c ∈ preNorm s, safeLow c = true := by
  intro c hc
  unfold preNorm at hc
  have h1 := mem_pyStrip hc
  rw [List.mem_map] at h1
  obtain ⟨c1, hc1, rfl⟩ := h1
  rw [List.mem_flatMap] at hc1
  obtain ⟨c0, hc0, hc01⟩ := hc1
  have h0 := hs c0 hc0
  rw [safeChar_nfkd h0] at hc01
  rw [List.mem_singleton] at hc01
  subst hc01
  exact safeLow_pyLower h0

theorem safeLow_bounds {c : Char} (h : safeLow c = true) :
    (97 ≤ c.toNat ∧ c.toNat ≤ 122) ∨ (48 ≤ c.toNat ∧ c.toNat ≤ 57) ∨
      c = ' ' ∨ c = ',' ∨ c = '-' ∨ c = '_' := by
  simp only [safeLow, isDigitC, Bool.or_eq_true, Bool.and_eq_true,
    decide_eq_true_eq] at h
  rcases h with ((((h | h) | h) | h) | h) | h
  · exact Or.inl ⟨h.1, h.2⟩
  · exact Or.inr (Or.inl ⟨h.1, h.2⟩)
  all_goals tauto

theorem isWordC_alpha {c : Char} (h1 : 97 ≤ c.toNat) (h2 : c.toNat ≤ 122) :
    isWordC c = true := by
  unfold isWordC Char.isAlphanum Char.isAlpha Char.isLower
  simp only [Bool.or_eq_true, Bool.and_eq_true, decide_eq_true_eq]
  exact Or.inl (Or.inl (Or.inr ⟨h1, h2⟩))

theorem isWordC_digit {c : Char} (h1 : 48 ≤ c.toNat) (h2 : c.toNat ≤ 57) :
    isWordC c = true := by
  unfold isWordC Char.isAlphanum Char.isDigit
  simp only [Bool.or_eq_true, Bool.and_eq_true, decide_eq_true_eq]
  exact Or.inl (Or.inr ⟨h1, h2⟩)

theorem safeLow_allowedM {c : Char} (h : safeLow c = true) : allowedM c = true := by
  rcases safeLow_bounds h with h | h | h | h | h | h
  · unfold allowedM
    simp [isWordC_alpha h.1 h.2]
  · unfold allowedM
    simp [isWordC_digit h.1 h.2]
  all_goals subst h
  all_goals decide

theorem safeLow_allowedE {c : Char} (h : safeLow c = true) : allowedE c = true := by
  rcases safeLow_bounds h with h | h | h | h | h | h
  · unfold allowedE
    simp [isWordC_alpha h.1 h.2]
  · unfold allowedE
    simp [isWordC_digit h.1 h.2]
  all_goals subst h
  all_goals decide

theorem safeLow_ne_times {c : Char} (h : safeLow c = true) : c ≠ '×' := by
  rcases safeLow_bounds h with h | h | h | h | h | h
  · intro he; subst he; exact absurd h.2 (by decide)
  · intro he; subst he; exact absurd h.2 (by decide)
  all_goals subst h
  all_goals decide

theorem safeLow_ne_dot {c : Char} (h : safeLow c = true) : c ≠ '.' := by
  rcases safeLow_bounds h with h | h | h | h | h | h
  · intro he; subst he; exact absurd h.1 (by decide)
  · intro he; subst he; exact absurd h.1 (by decide)
  all_goals subst h
  all_goals decide

theorem mem_of_getLast? {l : List Char} {c : Char} (h : l.getLast? = some c) :
    c ∈ l := by
  induction l with
  | nil => cases h
  | cons a as ih =>
    by_cases has : as = []
    · subst has
      simp only [List.getLast?_singleton, Option.some.injEq] at h
      subst h
      exact List.mem_singleton.mpr rfl
    · rw [getLast?_cons_ne_nil has] at h
      exact List.mem_cons_of_mem _ (ih h)

theorem collapseWs_cons (a : Char) (cs : List Char) :
    collapseWs (a :: cs) =
      if isPyWs a then
        match collapseWs cs with
        | d :: _ => if d = ' ' then collapseWs cs else ' ' :: collapseWs cs
        | [] => [' ']
      else a :: collapseWs cs := rfl

theorem mem_collapseWs {t : List Char} {c : Char} (h : c ∈ collapseWs t) :
    c ∈ t ∨ c = ' ' := by
  induction t with
  | nil => cases h
  | cons a cs ih =>
    rw [collapseWs_cons] at h
    by_cases hws : isPyWs a = true
    · rw [if_pos hws] at h
      cases hr : collapseWs cs with
      | nil =>
        rw [hr] at h
        rw [List.mem_singleton] at h
        exact Or.inr h
      | cons d r2 =>
        rw [hr] at h
        have h2 : c ∈ (if d = ' ' then d :: r2 else ' ' :: d :: r2) := h
        by_cases hd : d = ' '
        · rw [if_pos hd] at h2
          rw [← hr] at h2
          rcases ih h2 with h3 | h3
          · exact Or.inl (List.mem_cons_of_mem _ h3)
          · exact Or.inr h3
        · rw [if_neg hd] at h2
          rcases List.mem_cons.mp h2 with h3 | h3
          · exact Or.inr h3
          · rw [← hr] at h3
            rcases ih h3 with h4 | h4
            · exact Or.inl (List.mem_cons_of_mem _ h4)
            · exact Or.inr h4
    · rw [if_neg hws] at h
      rcases List.mem_cons.mp h with h3 | h3
      · exact Or.inl (h3 ▸ List.mem_cons_self ..)
      · rcases ih h3 with h4 | h4
        · exact Or.inl (List.mem_cons_of_mem _ h4)
        · exact Or.inr h4

theorem collapseWs_ne_nil {t : List Char} (h : t ≠ []) : collapseWs t ≠ [] := by
  cases t with
  | nil => exact absurd rfl h
  | cons a cs =>
    rw [collapseWs_cons]
    by_cases hws : isPyWs a = true
    · rw [if_pos hws]
      cases hr : collapseWs cs with
      | nil => simp
      | cons d r2 =>
        show (if d = ' ' then d :: r2 else ' ' :: d :: r2) ≠ []
        by_cases hd : d = ' '
        · rw [if_pos hd]; simp
        · rw [if_neg hd]; simp
    · rw [if_neg hws]; simp

theorem collapseWs_head_not_ws {t : List Char} {c : Char}
    (hh : ∀ d, t.head? = some d → isPyWs d = false)
    (h : (collapseWs t).head? = some c) : isPyWs c = false := by
  cases t with
  | nil => cases h
  | cons a cs =>
    have ha := hh a rfl
    rw [collapseWs_cons, if_neg (by rw [ha]; exact Bool.false_ne_true)] at h
    rw [List.head?_cons, Option.some.injEq] at h
    subst h
    exact ha

theorem collapseWs_getLast_not_ws {t : List Char} :
    ∀ {c : Char}, (∀ d, t.getLast? = some d → isPyWs d = false) →
      (collapseWs t).getLast? = some c → isPyWs c = false := by
  induction t with
  | nil => intro c _ h; cases h
  | cons a cs ih =>
    intro c hl h
    by_cases hcs : cs = []
    · subst hcs
      have ha := hl a rfl
      rw [collapseWs_cons, if_neg (by rw [ha]; exact Bool.false_ne_true)] at h
      simp only [show collapseWs [] = [] from rfl, List.getLast?_singleton,
        Option.some.injEq] at h
      subst h
      exact ha
    · have hl2 : ∀ d, cs.getLast? = some d → isPyWs d = false := fun d hd =>
        hl d (by rw [getLast?_cons_ne_nil hcs]; exact hd)
      have hne : collapseWs cs ≠ [] := collapseWs_ne_nil hcs
      rw [collapseWs_cons] at h
      by_cases hws : isPyWs a = true
      · rw [if_pos hws] at h
        cases hr : collapseWs cs with
        | nil => exact absurd hr hne
        | cons d r2 =>
          rw [hr] at h
          have h2 : (if d = ' ' then d :: r2 else ' ' :: d :: r2).getLast? = some c := h
          by_cases hd : d = ' '
          · rw [if_pos hd] at h2
            exact ih hl2 (by rw [hr]; exact h2)
          · rw [if_neg hd] at h2
            rw [getLast?_cons_ne_nil (by simp)] at h2
            exact ih hl2 (by rw [hr]; exact h2)
      · rw [if_neg hws] at h
        rw [getLast?_cons_ne_nil hne] at h
        exact ih hl2 h

theorem head?_some_eq {l : List Char} {c : Char} (h : l.head? = some c) :
    l = c :: l.drop 1 := by
  cases l with
  | nil => cases h
  | cons a as =>
    rw [List.head?_cons, Option.some.injEq] at h
    subst h
    rfl

theorem digit_not_ws {c : Char} (h : isDigitC c = true) : isPyWs c = false := by
  simp only [isDigitC, Bool.and_eq_true, decide_eq_true_eq] at h
  have h1 : 48 ≤ c.toNat := h.1
  rw [Bool.eq_false_iff]
  intro hw
  simp only [isPyWs, Bool.or_eq_true, decide_eq_true_eq] at hw
  rcases hw with ((((hw | hw) | hw) | hw) | hw) | hw
  all_goals subst hw
  all_goals exact absurd h1 (by decide)

theorem numToken_plain_facts {s : List Char} (hd : s.takeWhile isDigitC ≠ []) :
    (∃ c, (s.takeWhile isDigitC).head? = some c ∧ isDigitC c = true) ∧
    (∃ c, (s.takeWhile isDigitC).getLast? = some c ∧ isDigitC c = true) ∧
    s.dropWhile isDigitC <:+ s ∧ ∀ c ∈ s.takeWhile isDigitC, c ∈ s := by
  refine ⟨?_, ?_, List.dropWhile_suffix _,
    fun c hc => (List.takeWhile_prefix _).sublist.subset hc⟩
  · cases hh : s.takeWhile isDigitC with
    | nil => exact absurd hh hd
    | cons c cs =>
      refine ⟨c, rfl, ?_⟩
      exact List.mem_takeWhile_imp (p := isDigitC) (l := s)
        (by rw [hh]; exact List.mem_cons_self ..)
  · cases hg : (s.takeWhile isDigitC).getLast? with
    | none => exact absurd (by simpa using hg) hd
    | some c =>
      exact ⟨c, rfl, List.mem_takeWhile_imp (mem_of_getLast? hg)⟩

/-- Facts about a successful `numToken` parse: the token starts and ends
with a digit, its characters come from the input, and the rest is a
suffix of the input. -/
theorem numToken_some {dec : Bool} {s t r : List Char}
    (h : numToken dec s = some (t, r)) :
    (∃ c, t.head? = some c ∧ isDigitC c = true) ∧
    (∃ c, t.getLast? = some c ∧ isDigitC c = true) ∧
    r <:+ s ∧ ∀ c ∈ t, c ∈ s := by
  simp only [numToken] at h
  by_cases hd : s.takeWhile isDigitC = []
  · rw [if_pos hd] at h; cases h
  · rw [if_neg hd] at h
    have hpf := numToken_plain_facts hd
    cases dec with
    | false =>
      have h2 : (some (s.takeWhile isDigitC, s.dropWhile isDigitC) :
          Option (List Char × List Char)) = some (t, r) := h
      simp only [Option.some.injEq, Prod.mk.injEq] at h2
      obtain ⟨rfl, rfl⟩ := h2
      exact hpf
    | true =>
      by_cases hdot : (s.dropWhile isDigitC).head? = some '.'
      · rw [if_pos hdot] at h
        by_cases hf : (((s.dropWhile isDigitC).drop 1).takeWhile isDigitC) = []
        · rw [if_pos hf] at h
          simp only [Option.some.injEq, Prod.mk.injEq] at h
          obtain ⟨rfl, rfl⟩ := h
          exact hpf
        · rw [if_neg hf] at h
          simp only [Option.some.injEq, Prod.mk.injEq] at h
          obtain ⟨rfl, rfl⟩ := h
          have hpf2 := numToken_plain_facts hf
          have hsub1 : ((s.dropWhile isDigitC).drop 1) <:+ s :=
            (List.drop_suffix _ _).trans (List.dropWhile_suffix _)
          refine ⟨?_, ?_, ?_, ?_⟩
          · obtain ⟨c, hc, hcd⟩ := hpf.1
            refine ⟨c, ?_, hcd⟩
            rw [head?_some_eq hc]
            rfl
          · obtain ⟨c, hc, hcd⟩ := hpf2.1
            have hfe : ((s.dropWhile isDigitC).drop 1).takeWhile isDigitC ≠ [] := hf
            obtain ⟨cl, hcl, hcld⟩ := hpf2.2.1
            refine ⟨cl, ?_, hcld⟩
            have hne : '.' :: ((s.dropWhile isDigitC).drop 1).takeWhile isDigitC ≠ [] :=
              by simp
            rw [getLast?_append_right _ hne, getLast?_cons_ne_nil hfe]
            exact hcl
          · exact (List.dropWhile_suffix isDigitC).trans hsub1
          · intro c hc
            rcases List.mem_append.mp hc with hc1 | hc1
            · exact hpf.2.2.2 c hc1
            · rcases List.mem_cons.mp hc1 with rfl | hc2
              · have hdm : '.' ∈ s.dropWhile isDigitC := by
                  rw [head?_some_eq hdot]
                  exact List.mem_cons_self ..
                exact (List.dropWhile_suffix isDigitC).sublist.subset hdm
              · exact hsub1.sublist.subset (hpf2.2.2.2 c hc2)
      · rw [if_neg hdot] at h
        simp only [Option.some.injEq, Prod.mk.injEq] at h
        obtain ⟨rfl, rfl⟩ := h
        exact hpf

theorem numToken_dec_eq {s : List Char} (h : '.' ∉ s) :
    numToken true s = numToken false s := by
  simp only [numToken]
  by_cases hd : s.takeWhile isDigitC = []
  · rw [if_pos hd, if_pos hd]
  · rw [if_neg hd, if_neg hd]
    have hdot : ¬ ((s.dropWhile isDigitC).head? = some '.') := by
      intro hh
      exact h (((List.dropWhile_suffix _).sublist).subset
        (by rw [head?_some_eq hh]; exact List.mem_cons_self ..))
    rw [if_neg hdot]
    rfl

theorem dimMatchAt_dec_eq {sep : Char} {s : List Char} (h : '.' ∉ s) :
    dimMatchAt true sep s = dimMatchAt false sep s := by
  unfold dimMatchAt
  rw [numToken_dec_eq h]
  cases hn : numToken false s with
  | none => rfl
  | some p =>
    obtain ⟨t1, r1⟩ := p
    simp only [Option.some_bind]
    by_cases hsep : ((r1.dropWhile isPyWs).head? = some sep)
    · rw [if_pos hsep, if_pos hsep]
      have hr1 : '.' ∉ ((r1.dropWhile isPyWs).drop 1).dropWhile isPyWs := by
        intro hc
        apply h
        have hs1 : r1 <:+ s := (numToken_some hn).2.2.1
        exact hs1.sublist.subset (((List.dropWhile_suffix isPyWs).trans
          ((List.drop_suffix _ _).trans (List.dropWhile_suffix _))).sublist.subset hc)
      rw [numToken_dec_eq hr1]
    · rw [if_neg hsep, if_neg hsep]

theorem dimMatchAt_none_of_sep_absent {dec : Bool} {sep : Char}
    {s : List Char} (h : sep ∉ s) : dimMatchAt dec sep s = none := by
  unfold dimMatchAt
  cases hn : numToken dec s with
  | none => rfl
  | some p =>
    obtain ⟨t1, r1⟩ := p
    simp only [Option.some_bind]
    have hns : ¬ ((r1.dropWhile isPyWs).head? = some sep) := by
      intro hsep
      apply h
      have hs1 : r1 <:+ s := (numToken_some hn).2.2.1
      have hm : sep ∈ r1.dropWhile isPyWs := by
        rw [head?_some_eq hsep]
        exact List.mem_cons_self ..
      exact hs1.sublist.subset ((List.dropWhile_suffix _).sublist.subset hm)
    rw [if_neg hns]

/-- Facts about a successful dimension-pattern match: the replacement
starts and ends with a digit, its characters come from the input or are
the literal `x`, and the rest is a suffix of the input. -/
theorem dimMatchAt_some {dec : Bool} {sep : Char} {s repl rest : List Char}
    (h : dimMatchAt dec sep s = some (repl, rest)) :
    (∃ c, repl.head? = some c ∧ isDigitC c = true) ∧
    (∃ c, repl.getLast? = some c ∧ isDigitC c = true) ∧
    rest <:+ s ∧ ∀ c ∈ repl, c ∈ s ∨ c = 'x' := by
  unfold dimMatchAt at h
  cases hn : numToken dec s with
  | none => rw [hn] at h; cases h
  | some p =>
    obtain ⟨t1, r1⟩ := p
    rw [hn] at h
    simp only [Option.some_bind] at h
    by_cases hsep : ((r1.dropWhile isPyWs).head? = some sep)
    · rw [if_pos hsep] at h
      cases hn2 : numToken dec (((r1.dropWhile isPyWs).drop 1).dropWhile isPyWs) with
      | none => rw [hn2] at h; cases h
      | some q =>
        obtain ⟨t2, r5⟩ := q
        rw [hn2] at h
        simp only [Option.some_bind, Option.some.injEq, Prod.mk.injEq] at h
        obtain ⟨rfl, rfl⟩ := h
        have hf1 := numToken_some hn
        have hf2 := numToken_some hn2
        have hmid : (((r1.dropWhile isPyWs).drop 1).dropWhile isPyWs) <:+ s :=
          ((List.dropWhile_suffix isPyWs).trans
            ((List.drop_suffix _ _).trans (List.dropWhile_suffix _))).trans
            hf1.2.2.1
        refine ⟨?_, ?_, ?_, ?_⟩
        · obtain ⟨c, hc, hcd⟩ := hf1.1
          refine ⟨c, ?_, hcd⟩
          rw [head?_some_eq hc]
          rfl
        · obtain ⟨c, hc, hcd⟩ := hf2.2.1
          refine ⟨c, ?_, hcd⟩
          have ht2 : t2 ≠ [] := by
            intro he
            rw [he] at hc
            cases hc
          rw [getLast?_append_right t1 (by simp), getLast?_cons_ne_nil ht2]
          exact hc
        · exact hf2.2.2.1.trans hmid
        · intro c hc
          rcases List.mem_append.mp hc with hc1 | hc1
          · exact Or.inl (hf1.2.2.2 c hc1)
          · rcases List.mem_cons.mp hc1 with rfl | hc2
            · exact Or.inr rfl
            · exact Or.inl (hmid.sublist.subset (hf2.2.2.2 c hc2))
    · rw [if_neg hsep] at h; cases h

theorem dimSubF_succ_cons (dec : Bool) (sep : Char) (f : Nat) (c : Char)
    (cs : List Char) :
    dimSubF dec sep (f + 1) (c :: cs) =
      match dimMatchAt dec sep (c :: cs) with
      | some (repl, rest) => repl ++ dimSubF dec sep f rest
      | none => c :: dimSubF dec sep f cs := rfl

theorem dimSubF_nil (dec : Bool) (sep : Char) : ∀ f : Nat, dimSubF dec sep f [] = []
  | 0 => rfl
  | _ + 1 => rfl

theorem dimSubF_dec_eq {sep : Char} :
    ∀ (f : Nat) (s : List Char), '.' ∉ s →
      dimSubF true sep f s = dimSubF false sep f s := by
  intro f
  induction f with
  | zero => intro s _; rfl
  | succ f ih =>
    intro s h
    cases s with
    | nil => rfl
    | cons c cs =>
      rw [dimSubF_succ_cons, dimSubF_succ_cons, dimMatchAt_dec_eq h]
      cases hm : dimMatchAt false sep (c :: cs) with
      | none =>
        show c :: dimSubF true sep f cs = c :: dimSubF false sep f cs
        rw [ih cs fun hc => h (List.mem_cons_of_mem _ hc)]
      | some pr =>
        obtain ⟨repl, rest⟩ := pr
        show repl ++ dimSubF true sep f rest = repl ++ dimSubF false sep f rest
        rw [ih rest fun hc => h ((dimMatchAt_some hm).2.2.1.sublist.subset hc)]

theorem dimSubF_sep_absent {dec : Bool} {sep : Char} :
    ∀ (f : Nat) (s : List Char), sep ∉ s → dimSubF dec sep f s = s := by
  intro f
  induction f with
  | zero => intro s _; rfl
  | succ f ih =>
    intro s h
    cases s with
    | nil => rfl
    | cons c cs =>
      rw [dimSubF_succ_cons, dimMatchAt_none_of_sep_absent h]
      show c :: dimSubF dec sep f cs = c :: cs
      rw [ih cs fun hc => h (List.mem_cons_of_mem _ hc)]

theorem mem_dimSubF {dec : Bool} {sep : Char} :
    ∀ (f : Nat) (s : List Char) (c : Char),
      c ∈ dimSubF dec sep f s → c ∈ s ∨ c = 'x' := by
  intro f
  induction f with
  | zero => intro s c hc; exact Or.inl hc
  | succ f ih =>
    intro s c hc
    cases s with
    | nil => rw [dimSubF_nil] at hc; cases hc
    | cons a cs =>
      rw [dimSubF_succ_cons] at hc
      cases hm : dimMatchAt dec sep (a :: cs) with
      | none =>
        rw [hm] at hc
        have hc' : c ∈ a :: dimSubF dec sep f cs := hc
        rcases List.mem_cons.mp hc' with rfl | hc2
        · exact Or.inl (List.mem_cons_self ..)
        · rcases ih cs c hc2 with h | h
          · exact Or.inl (List.mem_cons_of_mem _ h)
          · exact Or.inr h
      | some pr =>
        obtain ⟨repl, rest⟩ := pr
        rw [hm] at hc
        have hc' : c ∈ repl ++ dimSubF dec sep f rest := hc
        have hfm := dimMatchAt_some hm
        rcases List.mem_append.mp hc' with h1 | h1
        · exact hfm.2.2.2 c h1
        · rcases ih rest c h1 with h | h
          · exact Or.inl (hfm.2.2.1.sublist.subset h)
          · exact Or.inr h

theorem dimSubF_ne_nil {dec : Bool} {sep : Char} :
    ∀ (f : Nat) (s : List Char), s ≠ [] → dimSubF dec sep f s ≠ [] := by
  intro f
  induction f with
  | zero => intro s hs; exact hs
  | succ f ih =>
    intro s hs
    cases s with
    | nil => exact absurd rfl hs
    | cons a cs =>
      rw [dimSubF_succ_cons]
      cases hm : dimMatchAt dec sep (a :: cs) with
      | none =>
        show a :: dimSubF dec sep f cs ≠ []
        simp
      | some pr =>
        obtain ⟨repl, rest⟩ := pr
        show repl ++ dimSubF dec sep f rest ≠ []
        have hfm := dimMatchAt_some hm
        obtain ⟨c, hc, _⟩ := hfm.1
        intro he
        rw [List.append_eq_nil] at he
        rw [he.1] at hc
        cases hc

theorem dimSubF_head_not_ws {dec : Bool} {sep : Char} :
    ∀ (f : Nat) (s : List Char),
      (∀ d, s.head? = some d → isPyWs d = false) →
      ∀ c, (dimSubF dec sep f s).head? = some c → isPyWs c = false := by
  intro f
  induction f with
  | zero => intro s hh c hc; exact hh c hc
  | succ f ih =>
    intro s hh c hc
    cases s with
    | nil => rw [dimSubF_nil] at hc; cases hc
    | cons a cs =>
      rw [dimSubF_succ_cons] at hc
      cases hm : dimMatchAt dec sep (a :: cs) with
      | none =>
        rw [hm] at hc
        have hc' : (a :: dimSubF dec sep f cs).head? = some c := hc
        rw [List.head?_cons, Option.some.injEq] at hc'
        subst hc'
        exact hh a rfl
      | some pr =>
        obtain ⟨repl, rest⟩ := pr
        rw [hm] at hc
        have hc' : (repl ++ dimSubF dec sep f rest).head? = some c := hc
        have hfm := dimMatchAt_some hm
        obtain ⟨d, hd, hdd⟩ := hfm.1
        rw [head?_some_eq hd] at hc'
        have hc2 : some d = some c := hc'
        rw [Option.some.injEq] at hc2
        subst hc2
        exact digit_not_ws hdd

theorem dimSubF_getLast_not_ws {dec : Bool} {sep : Char} :
    ∀ (f : Nat) (s : List Char),
      (∀ d, s.getLast? = some d → isPyWs d = false) →
      ∀ c, (dimSubF dec sep f s).getLast? = some c → isPyWs c = false := by
  intro f
  induction f with
  | zero => intro s hl c hc; exact hl c hc
  | succ f ih =>
    intro s hl c hc
    cases s with
    | nil => rw [dimSubF_nil] at hc; cases hc
    | cons a cs =>
      rw [dimSubF_succ_cons] at hc
      cases hm : dimMatchAt dec sep (a :: cs) with
      | none =>
        rw [hm] at hc
        have hc' : (a :: dimSubF dec sep f cs).getLast? = some c := hc
        by_cases hcs : cs = []
        · subst hcs
          rw [dimSubF_nil] at hc'
          have hca : c ∈ [a] := mem_of_getLast? hc'
          rw [List.mem_singleton] at hca
          subst hca
          exact hl c rfl
        · have hne : dimSubF dec sep f cs ≠ [] := dimSubF_ne_nil f cs hcs
          rw [getLast?_cons_ne_nil hne] at hc'
          refine ih cs ?_ c hc'
          intro d hd
          refine hl d ?_
          rw [getLast?_cons_ne_nil hcs]
          exact hd
      | some pr =>
        obtain ⟨repl, rest⟩ := pr
        rw [hm] at hc
        have hc' : (repl ++ dimSubF dec sep f rest).getLast? = some c := hc
        have hfm := dimMatchAt_some hm
        by_cases hrest : rest = []
        · subst hrest
          rw [dimSubF_nil, List.append_nil] at hc'
          obtain ⟨d, hd, hdd⟩ := hfm.2.1
          rw [hc'] at hd
          rw [Option.some.injEq] at hd
          subst hd
          exact digit_not_ws hdd
        · have hne : dimSubF dec sep f rest ≠ [] := dimSubF_ne_nil f rest hrest
          rw [getLast?_append_right repl hne] at hc'
          refine ih rest ?_ c hc'
          intro d hd
          refine hl d ?_
          rw [← suffix_getLast? hfm.2.2.1 hrest]
          exact hd

theorem pyReplaceF_cons (old new : List Char) (f : Nat) (c : Char)
    (cs : List Char) :
    pyReplaceF old new (f + 1) (c :: cs) =
      if old.isPrefixOf (c :: cs) then
        new ++ pyReplaceF old new f ((c :: cs).drop old.length)
      else c :: pyReplaceF old new f cs := rfl

theorem pyReplaceF_nil (old new : List Char) :
    ∀ f : Nat, pyReplaceF old new f [] = []
  | 0 => rfl
  | _ + 1 => rfl

theorem pyReplaceF_self {old : List Char} (hold : old ≠ []) :
    ∀ (f : Nat) (s : List Char), s.length ≤ f → pyReplaceF old old f s = s := by
  intro f
  induction f with
  | zero => intro s _; rfl
  | succ f ih =>
    intro s hs
    cases s with
    | nil => rfl
    | cons c cs =>
      rw [pyReplaceF_cons]
      by_cases hp : old.isPrefixOf (c :: cs)
      · rw [if_pos hp]
        obtain ⟨t, ht⟩ := List.isPrefixOf_iff_prefix.mp hp
        have hdrop : (c :: cs).drop old.length = t := by
          rw [← ht, List.drop_left]
        have h1 : old.length + t.length = (c :: cs).length := by
          rw [← ht, List.length_append]
        have h2 : 0 < old.length := List.length_pos.mpr hold
        have h3 : (c :: cs).length = cs.length + 1 := List.length_cons c cs
        have h4 : cs.length + 1 ≤ f + 1 := by
          rw [← h3]
          exact hs
        rw [hdrop, ih t (by omega), ht]
      · rw [if_neg hp]
        have h4 : cs.length + 1 ≤ f + 1 := by
          rw [← List.length_cons c cs]
          exact hs
        rw [ih cs (by omega)]

theorem pyReplace_self {old : List Char} (s : List Char) (hold : old ≠ []) :
    pyReplace s old old = s := by
  unfold pyReplace
  rw [if_neg hold]
  exact pyReplaceF_self hold s.length s le_rfl

theorem pyReplaceF_ne_nil {old new : List Char} (hnew : new ≠ []) :
    ∀ (f : Nat) (s : List Char), s ≠ [] → pyReplaceF old new f s ≠ [] := by
  intro f
  induction f with
  | zero => intro s hs; exact hs
  | succ f ih =>
    intro s hs
    cases s with
    | nil => exact absurd rfl hs
    | cons c cs =>
      rw [pyReplaceF_cons]
      by_cases hp : old.isPrefixOf (c :: cs)
      · rw [if_pos hp]
        intro he
        rw [List.append_eq_nil] at he
        exact hnew he.1
      · rw [if_neg hp]
        simp

theorem pyReplaceF_head_not_ws {old new : List Char} (hnew : new ≠ [])
    (hnh : ∀ d, new.head? = some d → isPyWs d = false) :
    ∀ (f : Nat) (s : List Char),
      (∀ d, s.head? = some d → isPyWs d = false) →
      ∀ c, (pyReplaceF old new f s).head? = some c → isPyWs c = false := by
  intro f
  induction f with
  | zero => intro s hh c hc; exact hh c hc
  | succ f ih =>
    intro s hh c hc
    cases s with
    | nil => rw [pyReplaceF_nil] at hc; cases hc
    | cons a cs =>
      rw [pyReplaceF_cons] at hc
      by_cases hp : old.isPrefixOf (a :: cs)
      · rw [if_pos hp] at hc
        cases hn : new with
        | nil => exact absurd hn hnew
        | cons b bs =>
          rw [hn] at hc
          have hc' : (b :: (bs ++ pyReplaceF old new f ((a :: cs).drop old.length))).head? = some c := hc
          rw [List.head?_cons, Option.some.injEq] at hc'
          subst hc'
          refine hnh b ?_
          rw [hn]
          rfl
      · rw [if_neg hp] at hc
        rw [List.head?_cons, Option.some.injEq] at hc
        subst hc
        exact hh a rfl

theorem pyReplaceF_getLast_not_ws {old new : List Char} (hnew : new ≠ [])
    (hnl : ∀ d, new.getLast? = some d → isPyWs d = false) :
    ∀ (f : Nat) (s : List Char),
      (∀ d, s.getLast? = some d → isPyWs d = false) →
      ∀ c, (pyReplaceF old new f s).getLast? = some c → isPyWs c = false := by
  intro f
  induction f with
  | zero => intro s hl c hc; exact hl c hc
  | succ f ih =>
    intro s hl c hc
    cases s with
    | nil => rw [pyReplaceF_nil] at hc; cases hc
    | cons a cs =>
      rw [pyReplaceF_cons] at hc
      by_cases hp : old.isPrefixOf (a :: cs)
      · rw [if_pos hp] at hc
        by_cases hr : (a :: cs).drop old.length = []
        · rw [hr, pyReplaceF_nil, List.append_nil] at hc
          exact hnl c hc
        · have hne : pyReplaceF old new f ((a :: cs).drop old.length) ≠ [] :=
            pyReplaceF_ne_nil hnew f _ hr
          rw [getLast?_append_right new hne] at hc
          refine ih _ ?_ c hc
          intro d hd
          refine hl d ?_
          rw [← suffix_getLast? (List.drop_suffix _ _) hr]
          exact hd
      · rw [if_neg hp] at hc
        by_cases hcs : cs = []
        · subst hcs
          rw [pyReplaceF_nil] at hc
          have hca : c ∈ [a] := mem_of_getLast? hc
          rw [List.mem_singleton] at hca
          subst hca
          exact hl c rfl
        · have hne : pyReplaceF old new f cs ≠ [] := pyReplaceF_ne_nil hnew f cs hcs
          rw [getLast?_cons_ne_nil hne] at hc
          refine ih cs ?_ c hc
          intro d hd
          refine hl d ?_
          rw [getLast?_cons_ne_nil hcs]
          exact hd

theorem dropWhile_eq_self_of_head {p : Char → Bool} {l : List Char}
    (h : ∀ c, l.head? = some c → p c = false) : l.dropWhile p = l := by
  cases l with
  | nil => rfl
  | cons a as =>
    rw [List.dropWhile_cons, if_neg (by rw [h a rfl]; exact Bool.false_ne_true)]

theorem pyStrip_eq_self {l : List Char}
    (hh : ∀ c, l.head? = some c → isPyWs c = false)
    (hl : ∀ c, l.getLast? = some c → isPyWs c = false) : pyStrip l = l := by
  unfold pyStrip
  rw [dropWhile_eq_self_of_head hh]
  rw [dropWhile_eq_self_of_head
    (fun c hc => hl c (by rw [← List.head?_reverse]; exact hc))]
  exact List.reverse_reverse l

theorem pyStrip_head_not_ws {l : List Char} {c : Char}
    (h : (pyStrip l).head? = some c) : isPyWs c = false := by
  unfold pyStrip at h
  rw [List.head?_reverse] at h
  have hne : ((l.dropWhile isPyWs).reverse).dropWhile isPyWs ≠ [] := by
    intro he
    rw [he] at h
    cases h
  rw [suffix_getLast? (List.dropWhile_suffix _) hne, List.getLast?_reverse] at h
  exact dropWhile_head_not (head?_some_eq h)

theorem pyStrip_getLast_not_ws {l : List Char} {c : Char}
    (h : (pyStrip l).getLast? = some c) : isPyWs c = false := by
  unfold pyStrip at h
  rw [List.getLast?_reverse] at h
  exact dropWhile_head_not (head?_some_eq h)

/-- C3 (amended): on every string whose characters are unaccented ASCII
letters, digits, spaces, commas, hyphens or underscores (no dot, no `×`,
no characters outside both allowed classes), the Supply Matcher's
normalizer and the Equivalence Manager's normalizer agree.  (The original
universally quantified claim is refuted by `normalizers_differ`.) -/
theorem normalizers_agree (s : List Char)
    (hs : ∀ c ∈ s, safeChar c = true) :
    matcherNormalize s = equivNormalize s := by
  by_cases hnil : s = []
  · subst hnil; rfl
  · have hlow := preNorm_safeLow hs
    have hmap : (preNorm s).map (fun c => if c = '×' then 'x' else c) = preNorm s :=
      map_eq_self_of fun a ha => if_neg (safeLow_ne_times (hlow a ha))
    have hfM : (preNorm s).filter allowedM = preNorm s :=
      List.filter_eq_self.mpr fun a ha => safeLow_allowedM (hlow a ha)
    have hfE : (preNorm s).filter allowedE = preNorm s :=
      List.filter_eq_self.mpr fun a ha => safeLow_allowedE (hlow a ha)
    have hclow : ∀ c ∈ collapseWs (preNorm s), safeLow c = true := by
      intro c hc
      rcases mem_collapseWs hc with h | h
      · exact hlow c h
      · subst h; decide
    have hdot : '.' ∉ collapseWs (preNorm s) := fun hc =>
      safeLow_ne_dot (hclow _ hc) rfl
    have hdec : dimSub true 'x' (collapseWs (preNorm s)) =
        dimSub false 'x' (collapseWs (preNorm s)) :=
      dimSubF_dec_eq _ _ hdot
    have htimes : '×' ∉ dimSub false 'x' (collapseWs (preNorm s)) := by
      intro hc
      rcases mem_dimSubF _ _ _ hc with h | h
      · exact safeLow_ne_times (hclow _ h) rfl
      · exact absurd h (by decide)
    have hsep : dimSub false '×' (dimSub false 'x' (collapseWs (preNorm s))) =
        dimSub false 'x' (collapseWs (preNorm s)) :=
      dimSubF_sep_absent _ _ htimes
    have hpre_h : ∀ d, (preNorm s).head? = some d → isPyWs d = false :=
      fun d hd => pyStrip_head_not_ws hd
    have hpre_l : ∀ d, (preNorm s).getLast? = some d → isPyWs d = false :=
      fun d hd => pyStrip_getLast_not_ws hd
    have hcol_h : ∀ d, (collapseWs (preNorm s)).head? = some d → isPyWs d = false :=
      fun d hd => collapseWs_head_not_ws hpre_h hd
    have hcol_l : ∀ d, (collapseWs (preNorm s)).getLast? = some d → isPyWs d = false :=
      fun d hd => collapseWs_getLast_not_ws hpre_l hd
    have hv_h : ∀ d, (dimSub false 'x' (collapseWs (preNorm s))).head? = some d →
        isPyWs d = false :=
      fun d hd => dimSubF_head_not_ws _ _ hcol_h d hd
    have hv_l : ∀ d, (dimSub false 'x' (collapseWs (preNorm s))).getLast? = some d →
        isPyWs d = false :=
      fun d hd => dimSubF_getLast_not_ws _ _ hcol_l d hd
    have hstd : pyReplace (dimSub false 'x' (collapseWs (preNorm s)))
        "standard".data "estandar".data =
        pyReplaceF "standard".data "estandar".data
          (dimSub false 'x' (collapseWs (preNorm s))).length
          (dimSub false 'x' (collapseWs (preNorm s))) := by
      unfold pyReplace
      rw [if_neg (by decide)]
    have hest_h : ∀ d, ("estandar".data : List Char).head? = some d →
        isPyWs d = false := by
      intro d hd
      have hd2 : some 'e' = some d := hd
      rw [Option.some.injEq] at hd2
      subst hd2
      decide
    have hest_l : ∀ d, ("estandar".data : List Char).getLast? = some d →
        isPyWs d = false := by
      intro d hd
      have hd2 : ("estandar".data : List Char).getLast? = some 'r' := by decide
      rw [hd2, Option.some.injEq] at hd
      subst hd
      decide
    have hfin_h : ∀ d, (pyReplace (dimSub false 'x' (collapseWs (preNorm s)))
        "standard".data "estandar".data).head? = some d → isPyWs d = false := by
      intro d hd
      rw [hstd] at hd
      exact pyReplaceF_head_not_ws (by decide) hest_h _ _ hv_h d hd
    have hfin_l : ∀ d, (pyReplace (dimSub false 'x' (collapseWs (preNorm s)))
        "standard".data "estandar".data).getLast? = some d → isPyWs d = false := by
      intro d hd
      rw [hstd] at hd
      exact pyReplaceF_getLast_not_ws (by decide) hest_l _ _ hv_l d hd
    have hid1 : ∀ t : List Char, pyReplace t ['m', 'm'] ['m', 'm'] = t :=
      fun t => pyReplace_self t (by decide)
    have hid2 : ∀ t : List Char, pyReplace t ['c', 'm'] ['c', 'm'] = t :=
      fun t => pyReplace_self t (by decide)
    have hid3 : ∀ t : List Char, pyReplace t "tornillo".data "tornillo".data = t :=
      fun t => pyReplace_self t (by decide)
    have hid4 : ∀ t : List Char, pyReplace t "placa".data "placa".data = t :=
      fun t => pyReplace_self t (by decide)
    have hid5 : ∀ t : List Char, pyReplace t "clavo".data "clavo".data = t :=
      fun t => pyReplace_self t (by decide)
    have hid6 : ∀ t : List Char, pyReplace t "encefalico".data "encefalico".data = t :=
      fun t => pyReplace_self t (by decide)
    have hid7 : ∀ t : List Char, pyReplace t "estandar".data "estandar".data = t :=
      fun t => pyReplace_self t (by decide)
    simp only [matcherNormalize, equivNormalize]
    rw [if_neg hnil, hmap, hfM, hfE, hdec, hsep, hid1, hid2, hid3, hid4, hid5,
      hid6, hid7]
    exact pyStrip_eq_self hfin_h hfin_l

theorem normalizers_agree_witness :
    matcherNormalize "Tornillo Estandar 3x45, 4-a_b 12 x 9".data =
      equivNormalize "Tornillo Estandar 3x45, 4-a_b 12 x 9".data :=
  normalizers_agree _ (by decide)

end VGMed
